import Mathlib

/-!
Verification of the in-memory B+ tree index implemented in `src/btree.c`
(`bplus_tree_create`, `bplus_tree_find`, `bplus_tree_insert`,
`bplus_tree_delete`, `bplus_tree_find_range`, `bplus_tree_destroy` and their
internal helpers).

Shallow embedding conventions:

* Keys and values are opaque non-null pointers in the C code, compared through
  the user-supplied comparator.  We instantiate both with `Int` and fix the
  comparator to the repository's own `compare_ints` (the comparator used by the
  demo and the tests); `compare_ints` on non-null int keys is exactly the
  three-way integer comparison.  Null pointers at the public API boundary are
  modelled with `Option`.
* A node is `leaf es` (key/record pairs, in array order) or `internal ch`
  where the chain `ch` lists `pointers[0], keys[0], pointers[1], ..., keys[n-1],
  pointers[n]` in order: `Chain.cons c k rest` is one child followed by one
  separator key, `Chain.last c` is the final child.
* The leaf `next` links always thread the leaves in left-to-right order (the
  split code sets `new_leaf->next = leaf->next; leaf->next = new_leaf` with the
  new leaf placed immediately right of the old one), so the leaf chain of a
  tree is `leavesN root` and the chain reached by descending for a key is
  `chainFromN`.
* `malloc` failure of `make_record` is modelled by the `allocOk` flag of
  insert (the C code checks only this allocation).  Locking is concurrency and
  is not modelled; all statements are about quiescent trees.
* The value destructor is modelled by its observable effect: each operation
  returns the list of values the destructor was invoked on, in invocation
  order (empty when no destructor is configured).
-/

/-- `compare_ints` from btree.c, restricted to non-null keys: three-way
integer comparison returning -1, 0 or 1. -/
def compare_ints (a b : Int) : Int :=
  if a < b then -1 else if a > b then 1 else 0

/-- A leaf entry: one key together with the value held by its record. -/
abbrev Entry := Int × Int

mutual
/-- A B+ tree node (`struct Node`): a leaf holds key/record pairs in array
order; an internal node holds the alternating pointer/key arrays as a chain. -/
inductive Node : Type where
  | leaf (es : List Entry)
  | internal (ch : Chain)

/-- The `pointers`/`keys` arrays of an internal node, in order:
`cons c k rest` is child `c` followed by separator `k`; `last c` is
`pointers[num_keys]`. -/
inductive Chain : Type where
  | last (c : Node)
  | cons (c : Node) (k : Int) (rest : Chain)
end

/-- `num_keys` of an internal node: number of separator keys in its chain. -/
def numKeys : Chain → Nat
  | .last _ => 0
  | .cons _ _ rest => numKeys rest + 1

/-- The separator keys of an internal node, in array order. -/
def chainKeys : Chain → List Int
  | .last _ => []
  | .cons _ k rest => k :: chainKeys rest

mutual
/-- All entries of a subtree in left-to-right (in-order) order. -/
def toListN : Node → List Entry
  | .leaf es => es
  | .internal ch => toListC ch

/-- All entries below a chain, in left-to-right order. -/
def toListC : Chain → List Entry
  | .last c => toListN c
  | .cons c0 _ rest => toListN c0 ++ toListC rest
end

mutual
/-- The leaves of a subtree in left-to-right order; by the split threading
(`new_leaf->next = leaf->next; leaf->next = new_leaf`) this is exactly the
`next`-chain order of the C code. -/
def leavesN : Node → List (List Entry)
  | .leaf es => [es]
  | .internal ch => leavesC ch

/-- The leaves below a chain, in left-to-right order. -/
def leavesC : Chain → List (List Entry)
  | .last c => leavesN c
  | .cons c0 _ rest => leavesN c0 ++ leavesC rest
end

/-- `struct BPlusTree`: the root, the branching order, and whether a value
destructor was configured (`destroy_value != NULL`).  The comparator is fixed
to `compare_ints` (see the header comment). -/
structure BPlusTree where
  order : Nat
  hasDestroy : Bool
  root : Node

mutual
/-- `find_leaf` from btree.c: descend from a node to the leaf for `k`.  At an
internal node the child index is the first `i` with `compare(key, keys[i]) < 0`
(the C loop advances while `compare(key, keys[i]) >= 0`). -/
def findLeafN : Node → Int → List Entry
  | .leaf es, _ => es
  | .internal ch, k => findLeafC ch k

/-- `find_leaf` descent over the pointer/key chain of one internal node. -/
def findLeafC : Chain → Int → List Entry
  | .last c, k => findLeafN c k
  | .cons c0 k1 rest, k =>
      if compare_ints k k1 < 0 then findLeafN c0 k else findLeafC rest k
end

/-- The lookup loop of `bplus_tree_find`: first entry of the leaf whose key
compares equal to `k`, returning its record's value. -/
def findInLeaf : List Entry → Int → Option Int
  | [], _ => none
  | (k1, v1) :: tl, k => if compare_ints k1 k = 0 then some v1 else findInLeaf tl k

/-- `bplus_tree_find`: NULL tree or key gives NULL; otherwise descend and scan
the leaf.  (Stored values are never null: insert rejects null values.) -/
def bplus_tree_find (tree : Option BPlusTree) (key : Option Int) : Option Int :=
  match tree, key with
  | some t, some k => findInLeaf (findLeafN t.root k) k
  | _, _ => none

/-- Sorted insertion of a fresh pair, as performed by both insert paths of
btree.c: the insertion point is the first index whose key does not compare
`< 0` against the new key. -/
def insertSorted (k v : Int) : List Entry → List Entry
  | [] => [(k, v)]
  | (k1, v1) :: tl =>
      if compare_ints k1 k < 0 then (k1, v1) :: insertSorted k v tl
      else (k, v) :: (k1, v1) :: tl

/-- Result of inserting into a subtree: either the updated node, or a split
into a left node, a separator promoted to the parent, and a new right node. -/
inductive InsRes : Type where
  | one (n : Node)
  | split (l : Node) (sep : Int) (r : Node)

/-- Leaf insertion from `bplus_tree_insert`: if the leaf has room
(`num_keys < order - 1`) insert in place; otherwise build the `order`-entry
temp sequence, keep the first `split = (order + 1) / 2` entries, move the rest
to a new leaf, and promote the new leaf's first key. -/
def insLeaf (order : Nat) (k v : Int) (es : List Entry) : InsRes :=
  if es.length < order - 1 then .one (.leaf (insertSorted k v es))
  else
    let temp := insertSorted k v es
    let s := (order + 1) / 2
    .split (.leaf (temp.take s)) (((temp.drop s).headD (0, 0)).1) (.leaf (temp.drop s))

/-- The split of a full internal node in `insert_into_node_after_splitting`:
given the over-full chain (`order` keys, `order + 1` children), keep the first
`j = order / 2` keys and `j + 1` children, promote key index `j` (`k_prime =
temp_keys[split]`), and move the remaining keys and children to the new node. -/
def splitChain : Nat → Chain → Chain × Int × Chain
  | _, .last c => (.last c, 0, .last c)
  | 0, .cons c0 k1 rest => (.last c0, k1, rest)
  | j + 1, .cons c0 k1 rest =>
      let (l, s, r) := splitChain j rest
      (.cons c0 k1 l, s, r)

mutual
/-- Insertion into a subtree, propagating splits upward exactly as
`bplus_tree_insert` / `insert_into_parent` / `insert_into_node_after_splitting`
do: a split child contributes its promoted key and new right sibling at the
position just after the old child; a parent with room absorbs them, a full
parent splits at key index `order / 2`. -/
def insNode (order : Nat) (k v : Int) : Node → InsRes
  | .leaf es => insLeaf order k v es
  | .internal ch =>
      let ch' := insGo order k v ch
      if numKeys ch' ≤ order - 1 then .one (.internal ch')
      else
        let (l, s, r) := splitChain (order / 2) ch'
        .split (.internal l) s (.internal r)

/-- Descend the chain of an internal node to the child for `k` (same
comparison as `find_leaf`), insert there, and splice a possible split result
into the chain just after the old child. -/
def insGo (order : Nat) (k v : Int) : Chain → Chain
  | .last c =>
      match insNode order k v c with
      | .one c' => .last c'
      | .split l s r => .cons l s (.last r)
  | .cons c0 k1 rest =>
      if compare_ints k k1 < 0 then
        match insNode order k v c0 with
        | .one c' => .cons c' k1 rest
        | .split l s r => .cons l s (.cons r k1 rest)
      else .cons c0 k1 (insGo order k v rest)
end

/-- Top of the insert path: a split of the root creates a new root with one
key and two children (`insert_into_new_root`). -/
def insertRoot (order : Nat) (k v : Int) (root : Node) : Node :=
  match insNode order k v root with
  | .one n => n
  | .split l s r => .internal (.cons l s (.last r))

/-- `bplus_tree_insert`.  Returns the C return code (0 ok, -1 failure), the
tree afterwards, and the values the destructor was invoked on (always none:
the insert path never destroys values).  `allocOk` models the `make_record`
allocation; null arguments are rejected first, then the duplicate lookup runs,
then the record is allocated, then the tree is mutated.  An empty leaf root
takes the direct-placement branch (`tree->root->num_keys == 0`). -/
def bplus_tree_insert (allocOk : Bool) (tree : Option BPlusTree)
    (key value : Option Int) : Int × Option BPlusTree × List Int :=
  match tree, key, value with
  | some t, some k, some v =>
      if (findInLeaf (findLeafN t.root k) k).isSome then (-1, some t, [])
      else if allocOk = false then (-1, some t, [])
      else
        match t.root with
        | .leaf [] => (0, some { t with root := .leaf [(k, v)] }, [])
        | root => (0, some { t with root := insertRoot t.order k v root }, [])
  | t, _, _ => (-1, t, [])

/-- The unguarded search loop of `remove_entry_from_node`: index of the first
entry comparing equal to `k`; on a list with no match it runs to `length`
(which in C would read past `num_keys`). -/
def scanIdx (k : Int) : List Entry → Nat
  | [] => 0
  | (k1, _) :: tl => if compare_ints k1 k = 0 then 0 else scanIdx k tl + 1

/-- The removal/compaction of `remove_entry_from_node`: drop the first entry
whose key compares equal to `k` and shift the rest left. -/
def removeFirst (k : Int) : List Entry → List Entry
  | [] => []
  | (k1, v1) :: tl => if compare_ints k1 k = 0 then tl else (k1, v1) :: removeFirst k tl

mutual
/-- The structural effect of `bplus_tree_delete` / `delete_entry` on the tree:
the entry is removed from the leaf reached by the `find_leaf` descent and
nothing else changes (the rebalancing of `delete_entry` is omitted in the C
code, and `adjust_root` never restructures when the removal leaf is the
root, because a leaf root is simply kept). -/
def delNode (k : Int) : Node → Node
  | .leaf es => .leaf (removeFirst k es)
  | .internal ch => .internal (delGo k ch)

/-- Descent of the delete path through one internal node's chain. -/
def delGo (k : Int) : Chain → Chain
  | .last c => .last (delNode k c)
  | .cons c0 k1 rest =>
      if compare_ints k k1 < 0 then .cons (delNode k c0) k1 rest
      else .cons c0 k1 (delGo k rest)
end

/-- `bplus_tree_delete`: -1 on null arguments; descend to the leaf, scan for
the key, -1 when absent; otherwise remove the entry, destroying its record's
value (destructor invoked exactly when configured). -/
def bplus_tree_delete (tree : Option BPlusTree) (key : Option Int) :
    Int × Option BPlusTree × List Int :=
  match tree, key with
  | some t, some k =>
      match findInLeaf (findLeafN t.root k) k with
      | none => (-1, some t, [])
      | some v =>
          (0, some { t with root := delNode k t.root },
           if t.hasDestroy then [v] else [])
  | t, _ => (-1, t, [])

mutual
/-- The suffix of the leaf chain starting at the leaf `find_leaf` reaches for
`k`: the leaf itself followed, via the `next` links, by every leaf to its
right.  This is the sequence of leaves `bplus_tree_find_range` walks. -/
def chainFromN (k : Int) : Node → List (List Entry)
  | .leaf es => [es]
  | .internal ch => chainFromC k ch

/-- Chain-level descent for `chainFromN`. -/
def chainFromC (k : Int) : Chain → List (List Entry)
  | .last c => chainFromN k c
  | .cons c0 k1 rest =>
      if compare_ints k k1 < 0 then chainFromN k c0 ++ leavesC rest
      else chainFromC k rest
end

/-- The inner loop of `bplus_tree_find_range` on one leaf: emit values while
capacity remains and the key does not exceed `hi`; the flag records whether a
key `> hi` was reached (the loop's `done`). -/
def scanEntries (hi : Int) : List Entry → Nat → List Int × Bool
  | [], _ => ([], false)
  | (k1, v1) :: tl, cap =>
      if cap = 0 then ([], false)
      else if 0 < compare_ints k1 hi then ([], true)
      else
        let (vs, d) := scanEntries hi tl (cap - 1)
        (v1 :: vs, d)

/-- The outer loop of `bplus_tree_find_range` over the leaf chain. -/
def scanChain (hi : Int) : Nat → List (List Entry) → List Int
  | _, [] => []
  | cap, es :: rest =>
      let (vs, d) := scanEntries hi es cap
      if d then vs else vs ++ scanChain hi (cap - vs.length) rest

/-- `bplus_tree_find_range`: empty when `compare(start_key, end_key) > 0`;
otherwise descend to the leaf for `lo`, skip entries with key comparing
`< 0` against `lo`, then scan forward through the leaf chain.  The returned
list is the contents of `result_values`; the C return value is its length. -/
def bplus_tree_find_range (t : BPlusTree) (lo hi : Int) (cap : Nat) : List Int :=
  if 0 < compare_ints lo hi then []
  else
    match chainFromN lo t.root with
    | [] => []
    | es :: rest =>
        scanChain hi cap (es.dropWhile (fun e => compare_ints e.1 lo < 0) :: rest)

mutual
/-- `destroy_node_recursive`, observed through the destructor: the list of
values `tree->destroy_value` is invoked on, in invocation order (leaf records
left to right, children recursively in order). -/
def destroyN (hasD : Bool) : Node → List Int
  | .leaf es => if hasD then es.map (·.2) else []
  | .internal ch => destroyC hasD ch

/-- Chain part of `destroy_node_recursive`. -/
def destroyC (hasD : Bool) : Chain → List Int
  | .last c => destroyN hasD c
  | .cons c0 _ rest => destroyN hasD c0 ++ destroyC hasD rest
end

/-- `bplus_tree_destroy`: tear down every node, invoking the destructor on
each stored value. -/
def bplus_tree_destroy (t : BPlusTree) : List Int :=
  destroyN t.hasDestroy t.root

/-- `bplus_tree_create`: fails only when `order < 3`; the comparator pointer
is stored without any null check, and the destructor may be absent.  The root
is initialized as an empty leaf. -/
def bplus_tree_create (order : Int) (_comparator : Option (Int → Int → Int))
    (hasDestroy : Bool) : Option BPlusTree :=
  if order < 3 then none
  else some ⟨order.toNat, hasDestroy, .leaf []⟩

mutual
/-- Minimum-occupancy check used to inspect delete's behaviour, with the
thresholds of `delete_entry`: a leaf needs `order / 2` keys
(= ⌈(order−1)/2⌉) and an internal node `(order - 1) / 2` keys
(= ⌈order/2⌉ − 1).  Checks every node of the subtree. -/
def allMinN (order : Nat) : Node → Bool
  | .leaf es => decide (order / 2 ≤ es.length)
  | .internal ch => decide ((order - 1) / 2 ≤ numKeys ch) && allMinC order ch

/-- Chain part of `allMinN`. -/
def allMinC (order : Nat) : Chain → Bool
  | .last c => allMinN order c
  | .cons c0 _ rest => allMinN order c0 && allMinC order rest
end

/-- Minimum occupancy of every non-root node of a tree (the root is exempt). -/
def treeMinOcc (t : BPlusTree) : Bool :=
  match t.root with
  | .leaf _ => true
  | .internal ch => allMinC t.order ch

/-- Lower bound on entry keys: entries of a subtree are `≥` the separator to
their left (`none` = no bound). -/
def LB : Option Int → Int → Prop
  | none, _ => True
  | some l, x => l ≤ x

/-- Strict upper bound on entry and separator keys (`none` = no bound). -/
def UB : Option Int → Int → Prop
  | none, _ => True
  | some u, x => x < u

/-- Strict lower bound, satisfied by separator keys (`none` = no bound). -/
def SLB : Option Int → Int → Prop
  | none, _ => True
  | some l, x => l < x

/-- Boolean form of `LB`. -/
def lbB : Option Int → Int → Bool
  | none, _ => true
  | some l, x => decide (l ≤ x)

/-- Boolean form of `UB`. -/
def ubB : Option Int → Int → Bool
  | none, _ => true
  | some u, x => decide (x < u)

/-- Boolean form of `SLB`. -/
def sepLbB : Option Int → Int → Bool
  | none, _ => true
  | some l, x => decide (l < x)

/-- Strictly ascending keys, as a proposition. -/
abbrev KSorted (es : List Entry) : Prop :=
  es.Pairwise (fun a b => a.1 < b.1)

/-- Strictly ascending keys, decidably (adjacent comparison). -/
def sortedKeys : List Entry → Bool
  | [] => true
  | [_] => true
  | e1 :: e2 :: tl => decide (e1.1 < e2.1) && sortedKeys (e2 :: tl)

mutual
/-- Well-formedness of a subtree within the half-open key interval
`[lo, hi)`: capacity `num_keys ≤ order - 1`, strictly sorted leaf entries, all
entries inside the interval, and each separator strictly between its
neighbours' intervals. -/
def wfN (order : Nat) (lo hi : Option Int) : Node → Bool
  | .leaf es =>
      decide (es.length ≤ order - 1) && sortedKeys es
        && es.all (fun e => lbB lo e.1 && ubB hi e.1)
  | .internal ch => decide (numKeys ch ≤ order - 1) && wfC order lo hi ch

/-- Chain part of `wfN`: `cons c0 k1 rest` requires `lo < k1 < hi`, `c0`
well-formed on `[lo, k1)` and the rest on `[k1, hi)`. -/
def wfC (order : Nat) (lo hi : Option Int) : Chain → Bool
  | .last c => wfN order lo hi c
  | .cons c0 k1 rest =>
      sepLbB lo k1 && ubB hi k1 && wfN order lo (some k1) c0
        && wfC order (some k1) hi rest
end

/-- An internal root always carries at least one key (it is created with one
and delete never removes separator keys); leaf roots are unconstrained. -/
def rootHasKey : Node → Bool
  | .leaf _ => true
  | .internal ch => decide (1 ≤ numKeys ch)

/-- Well-formed tree: well-formed root over the unbounded interval, and a
non-degenerate root.  Every tree reachable through the public API satisfies
this. -/
def wfT (t : BPlusTree) : Bool :=
  wfN t.order none none t.root && rootHasKey t.root

/-- The leaf-level outcome of one insertion at the located leaf, used to
describe the leaf chain after an insert: an in-place update when the leaf has
room, the two split halves otherwise. -/
def newLeaves (order : Nat) (k v : Int) (es : List Entry) : List (List Entry) :=
  if es.length < order - 1 then [insertSorted k v es]
  else
    [(insertSorted k v es).take ((order + 1) / 2),
     (insertSorted k v es).drop ((order + 1) / 2)]

/-- Leaves of an insertion result. -/
def resLeaves : InsRes → List (List Entry)
  | .one n => leavesN n
  | .split l _ r => leavesN l ++ leavesN r

/-- Entries of an insertion result, in order. -/
def resToList : InsRes → List Entry
  | .one n => toListN n
  | .split l _ r => toListN l ++ toListN r

/-- Well-formedness of an insertion result within `[lo, hi)`: an absorbed
insert keeps the node well-formed; a split yields two well-formed halves with
the promoted separator strictly between the outer bounds. -/
def insWf (order : Nat) (lo hi : Option Int) : InsRes → Prop
  | .one n => wfN order lo hi n = true
  | .split l s r => wfN order lo (some s) l = true ∧ wfN order (some s) hi r = true
      ∧ SLB lo s ∧ UB hi s

/-! ### Basic lemmas about the comparator and the bound predicates -/

@[simp] theorem compare_ints_lt_iff (a b : Int) : compare_ints a b < 0 ↔ a < b := by
  unfold compare_ints; split_ifs <;> omega

@[simp] theorem compare_ints_eq_zero_iff (a b : Int) : compare_ints a b = 0 ↔ a = b := by
  unfold compare_ints
  split_ifs with h1 h2
  · exact ⟨fun h => absurd h (by decide), fun h => by omega⟩
  · exact ⟨fun h => absurd h (by decide), fun h => by omega⟩
  · exact ⟨fun _ => by omega, fun _ => rfl⟩

@[simp] theorem compare_ints_pos_iff (a b : Int) : 0 < compare_ints a b ↔ b < a := by
  unfold compare_ints; split_ifs <;> omega

@[simp] theorem LB_none (x : Int) : LB none x := trivial

@[simp] theorem LB_some_iff (l x : Int) : LB (some l) x ↔ l ≤ x := Iff.rfl

@[simp] theorem UB_none (x : Int) : UB none x := trivial

@[simp] theorem UB_some_iff (u x : Int) : UB (some u) x ↔ x < u := Iff.rfl

@[simp] theorem SLB_none (x : Int) : SLB none x := trivial

@[simp] theorem SLB_some_iff (l x : Int) : SLB (some l) x ↔ l < x := Iff.rfl

@[simp] theorem lbB_eq_true_iff (lo : Option Int) (x : Int) : lbB lo x = true ↔ LB lo x := by
  cases lo <;> simp [lbB, LB]

@[simp] theorem ubB_eq_true_iff (hi : Option Int) (x : Int) : ubB hi x = true ↔ UB hi x := by
  cases hi <;> simp [ubB, UB]

@[simp] theorem sepLbB_eq_true_iff (lo : Option Int) (x : Int) :
    sepLbB lo x = true ↔ SLB lo x := by
  cases lo <;> simp [sepLbB, SLB]

theorem SLB.toLB {lo : Option Int} {x : Int} (h : SLB lo x) : LB lo x := by
  cases lo with
  | none => trivial
  | some l => exact le_of_lt h

theorem UB.of_lt {hi : Option Int} {x y : Int} (hxy : x < y) (h : UB hi y) : UB hi x := by
  cases hi with
  | none => trivial
  | some u => exact lt_trans hxy h

theorem SLB.of_le {lo : Option Int} {x y : Int} (hxy : x ≤ y) (h : SLB lo x) : SLB lo y := by
  cases lo with
  | none => trivial
  | some l => exact lt_of_lt_of_le h hxy

theorem LB.slb_of_lt {lo : Option Int} {x y : Int} (hxy : x < y) (h : LB lo x) : SLB lo y := by
  cases lo with
  | none => trivial
  | some l => exact lt_of_le_of_lt h hxy

/-! ### Sortedness -/

theorem sortedKeys_iff : ∀ es : List Entry, sortedKeys es = true ↔ KSorted es
  | [] => by simp [sortedKeys]
  | [e] => by simp [sortedKeys]
  | e1 :: e2 :: tl => by
    have ih := sortedKeys_iff (e2 :: tl)
    simp only [sortedKeys, Bool.and_eq_true, decide_eq_true_eq, ih,
      List.pairwise_cons, List.mem_cons] at *
    constructor
    · rintro ⟨h12, h2, htl⟩
      refine ⟨?_, h2, htl⟩
      rintro b (rfl | hb)
      · exact h12
      · exact h12.trans (h2 b hb)
    · rintro ⟨h1, h2, htl⟩
      exact ⟨h1 e2 (Or.inl rfl), h2, htl⟩

theorem KSorted.sublist {es es' : List Entry} (h : List.Sublist es' es)
    (hs : KSorted es) : KSorted es' := List.Pairwise.sublist h hs

/-! ### insertSorted -/

theorem insertSorted_length (k v : Int) :
    ∀ es : List Entry, (insertSorted k v es).length = es.length + 1
  | [] => rfl
  | (k1, v1) :: tl => by
    simp only [insertSorted]
    split
    · simp [insertSorted_length k v tl]
    · simp

@[simp] theorem mem_insertSorted {a : Entry} {k v : Int} :
    ∀ es : List Entry, a ∈ insertSorted k v es ↔ a = (k, v) ∨ a ∈ es
  | [] => by simp [insertSorted]
  | (k1, v1) :: tl => by
    simp only [insertSorted]
    split
    · simp only [List.mem_cons, mem_insertSorted tl]
      tauto
    · simp [List.mem_cons]

theorem insertSorted_sorted {k v : Int} :
    ∀ {es : List Entry}, KSorted es → (∀ e ∈ es, e.1 ≠ k) →
      KSorted (insertSorted k v es)
  | [], _, _ => by simp [insertSorted]
  | (k1, v1) :: tl, hs, hne => by
    obtain ⟨hh, ht⟩ := List.pairwise_cons.1 hs
    simp only [insertSorted, compare_ints_lt_iff]
    split
    · rename_i hlt
      refine List.pairwise_cons.2
        ⟨?_, insertSorted_sorted ht (fun e he => hne e (List.mem_cons_of_mem _ he))⟩
      intro b hb
      rcases (mem_insertSorted _).1 hb with rfl | hb
      · exact hlt
      · exact hh b hb
    · rename_i hnlt
      have hk1 : k < k1 := by
        have := hne (k1, v1) (List.mem_cons_self _ _)
        simp only [ne_eq] at this
        omega
      refine List.pairwise_cons.2 ⟨?_, List.pairwise_cons.2 ⟨hh, ht⟩⟩
      intro b hb
      rcases List.mem_cons.1 hb with rfl | hb
      · exact hk1
      · exact hk1.trans (hh b hb)

theorem insertSorted_append_left {k v : Int} {B : List Entry} :
    ∀ {A : List Entry}, (∀ a ∈ A, a.1 < k) →
      insertSorted k v (A ++ B) = A ++ insertSorted k v B
  | [], _ => rfl
  | (k1, v1) :: A', h => by
    have h1 : k1 < k := h (k1, v1) (List.mem_cons_self _ _)
    simp only [List.cons_append, insertSorted, compare_ints_lt_iff, if_pos h1,
      List.append_eq]
    rw [insertSorted_append_left (fun a ha => h a (List.mem_cons_of_mem _ ha))]

theorem insertSorted_append_right {k v : Int} {B : List Entry}
    (hB : ∀ b ∈ B, k < b.1) :
    ∀ es : List Entry, insertSorted k v (es ++ B) = insertSorted k v es ++ B
  | [] => by
    cases B with
    | nil => rfl
    | cons b B' =>
      have hb : ¬ (b.1 < k) := by have := hB b (List.mem_cons_self _ _); omega
      simp only [List.nil_append, insertSorted]
      rw [if_neg (by simpa using hb)]
      simp [insertSorted]
  | (k1, v1) :: tl => by
    simp only [List.cons_append, insertSorted, List.append_eq]
    split
    · rw [insertSorted_append_right hB tl]
      simp
    · simp

/-! ### removeFirst, findInLeaf, scanIdx -/

theorem removeFirst_sublist (k : Int) :
    ∀ es : List Entry, List.Sublist (removeFirst k es) es
  | [] => List.Sublist.refl _
  | (k1, v1) :: tl => by
    simp only [removeFirst]
    split
    · exact List.sublist_cons_self _ _
    · exact List.Sublist.cons₂ _ (removeFirst_sublist k tl)

theorem removeFirst_eq_self {k : Int} :
    ∀ {es : List Entry}, (∀ e ∈ es, e.1 ≠ k) → removeFirst k es = es
  | [], _ => rfl
  | (k1, v1) :: tl, h => by
    have h1 : k1 ≠ k := h (k1, v1) (List.mem_cons_self _ _)
    simp only [removeFirst, compare_ints_eq_zero_iff, if_neg h1]
    rw [removeFirst_eq_self (fun e he => h e (List.mem_cons_of_mem _ he))]

theorem removeFirst_append_notmem_left {k : Int} {B : List Entry} :
    ∀ {A : List Entry}, (∀ a ∈ A, a.1 ≠ k) →
      removeFirst k (A ++ B) = A ++ removeFirst k B
  | [], _ => rfl
  | (k1, v1) :: A', h => by
    have h1 : k1 ≠ k := h (k1, v1) (List.mem_cons_self _ _)
    simp only [List.cons_append, removeFirst, compare_ints_eq_zero_iff, if_neg h1,
      List.append_eq]
    rw [removeFirst_append_notmem_left (fun a ha => h a (List.mem_cons_of_mem _ ha))]

theorem removeFirst_append_notmem_right {k : Int} {B : List Entry}
    (hB : ∀ b ∈ B, b.1 ≠ k) :
    ∀ A : List Entry, removeFirst k (A ++ B) = removeFirst k A ++ B
  | [] => by simp only [List.nil_append, removeFirst]; rw [removeFirst_eq_self hB]
  | (k1, v1) :: A' => by
    simp only [List.cons_append, removeFirst, List.append_eq]
    split
    · rfl
    · rw [removeFirst_append_notmem_right hB A']
      simp

theorem removeFirst_decomp {k v : Int} :
    ∀ {es : List Entry}, KSorted es → (k, v) ∈ es →
      ∃ A B, es = A ++ (k, v) :: B ∧ (∀ e ∈ A, e.1 ≠ k) ∧
        removeFirst k es = A ++ B
  | [], _, hmem => nomatch hmem
  | (k1, v1) :: tl, hs, hmem => by
    obtain ⟨hh, ht⟩ := List.pairwise_cons.1 hs
    by_cases hk : k1 = k
    · subst hk
      have hv : v1 = v := by
        rcases List.mem_cons.1 hmem with h | h
        · exact ((Prod.mk.injEq _ _ _ _ ▸ h).2).symm
        · exact absurd (hh _ h) (by simp)
      subst hv
      exact ⟨[], tl, by simp, by simp, by simp [removeFirst]⟩
    · have htl : (k, v) ∈ tl := by
        rcases List.mem_cons.1 hmem with h | h
        · exact absurd (congrArg Prod.fst h).symm hk
        · exact h
      obtain ⟨A, B, hAB, hA, hrem⟩ := removeFirst_decomp ht htl
      refine ⟨(k1, v1) :: A, B, by simp [hAB], ?_, ?_⟩
      · intro e he
        rcases List.mem_cons.1 he with rfl | he'
        · exact hk
        · exact hA e he'
      · simp only [removeFirst, compare_ints_eq_zero_iff, if_neg hk, hrem,
          List.cons_append]

theorem findInLeaf_eq_none {k : Int} :
    ∀ {es : List Entry}, (∀ e ∈ es, e.1 ≠ k) → findInLeaf es k = none
  | [], _ => rfl
  | (k1, v1) :: tl, h => by
    have h1 : k1 ≠ k := h (k1, v1) (List.mem_cons_self _ _)
    simp only [findInLeaf, compare_ints_eq_zero_iff, if_neg h1]
    exact findInLeaf_eq_none (fun e he => h e (List.mem_cons_of_mem _ he))

theorem findInLeaf_eq_some {k v : Int} :
    ∀ {es : List Entry}, KSorted es → (k, v) ∈ es → findInLeaf es k = some v
  | [], _, hmem => nomatch hmem
  | (k1, v1) :: tl, hs, hmem => by
    obtain ⟨hh, ht⟩ := List.pairwise_cons.1 hs
    by_cases hk : k1 = k
    · subst hk
      have hv : v1 = v := by
        rcases List.mem_cons.1 hmem with h | h
        · exact ((Prod.mk.injEq _ _ _ _ ▸ h).2).symm
        · exact absurd (hh _ h) (by simp)
      simp [findInLeaf, hv]
    · have htl : (k, v) ∈ tl := by
        rcases List.mem_cons.1 hmem with h | h
        · exact absurd (congrArg Prod.fst h).symm hk
        · exact h
      simp only [findInLeaf, compare_ints_eq_zero_iff, if_neg hk]
      exact findInLeaf_eq_some ht htl

theorem scanIdx_spec {k : Int} :
    ∀ es : List Entry, (findInLeaf es k).isSome = true →
      scanIdx k es < es.length ∧ removeFirst k es = es.eraseIdx (scanIdx k es)
  | [], h => by simp [findInLeaf] at h
  | (k1, v1) :: tl, h => by
    by_cases hk : k1 = k
    · simp [scanIdx, removeFirst, hk, List.eraseIdx]
    · simp only [findInLeaf, compare_ints_eq_zero_iff, if_neg hk] at h
      obtain ⟨hlt, heq⟩ := scanIdx_spec tl h
      simp only [scanIdx, removeFirst, compare_ints_eq_zero_iff, if_neg hk]
      refine ⟨by simpa using Nat.succ_lt_succ hlt, ?_⟩
      simp [List.eraseIdx, heq]

/-! ### toList, leaves and destroy -/

mutual
theorem toListN_eq_flatten : ∀ n : Node, toListN n = (leavesN n).flatten
  | .leaf es => by simp [toListN, leavesN]
  | .internal ch => by
    rw [toListN, leavesN, toListC_eq_flatten ch]

theorem toListC_eq_flatten : ∀ ch : Chain, toListC ch = (leavesC ch).flatten
  | .last c => by rw [toListC, leavesC, toListN_eq_flatten c]
  | .cons c0 k1 rest => by
    rw [toListC, leavesC, toListN_eq_flatten c0, toListC_eq_flatten rest,
      List.flatten_append]
end

mutual
theorem destroyN_true : ∀ n : Node, destroyN true n = (toListN n).map (·.2)
  | .leaf es => by simp [destroyN, toListN]
  | .internal ch => by rw [destroyN, toListN, destroyC_true ch]

theorem destroyC_true : ∀ ch : Chain, destroyC true ch = (toListC ch).map (·.2)
  | .last c => by rw [destroyC, toListC, destroyN_true c]
  | .cons c0 k1 rest => by
    rw [destroyC, toListC, destroyN_true c0, destroyC_true rest, List.map_append]
end

mutual
theorem destroyN_false : ∀ n : Node, destroyN false n = []
  | .leaf es => by simp [destroyN]
  | .internal ch => by rw [destroyN, destroyC_false ch]

theorem destroyC_false : ∀ ch : Chain, destroyC false ch = []
  | .last c => by rw [destroyC, destroyN_false c]
  | .cons c0 k1 rest => by
    rw [destroyC, destroyN_false c0, destroyC_false rest]
    rfl
end

/-! ### Unfolding the well-formedness predicate -/

theorem wfN_leaf_iff {order : Nat} {lo hi : Option Int} {es : List Entry} :
    wfN order lo hi (.leaf es) = true ↔
      es.length ≤ order - 1 ∧ KSorted es ∧ ∀ e ∈ es, LB lo e.1 ∧ UB hi e.1 := by
  simp [wfN, sortedKeys_iff, List.all_eq_true]
  tauto

theorem wfN_internal_iff {order : Nat} {lo hi : Option Int} {ch : Chain} :
    wfN order lo hi (.internal ch) = true ↔
      numKeys ch ≤ order - 1 ∧ wfC order lo hi ch = true := by
  simp [wfN]

theorem wfC_last_iff {order : Nat} {lo hi : Option Int} {c : Node} :
    wfC order lo hi (.last c) = true ↔ wfN order lo hi c = true := by
  simp [wfC]

theorem wfC_cons_iff {order : Nat} {lo hi : Option Int} {c0 : Node} {k1 : Int}
    {rest : Chain} :
    wfC order lo hi (.cons c0 k1 rest) = true ↔
      SLB lo k1 ∧ UB hi k1 ∧ wfN order lo (some k1) c0 = true
        ∧ wfC order (some k1) hi rest = true := by
  simp [wfC]
  tauto

/-! ### Entry bounds and global sortedness of well-formed subtrees -/

mutual
theorem wf_entries_N : ∀ (n : Node) (order : Nat) (lo hi : Option Int),
    wfN order lo hi n = true →
    (∀ e ∈ toListN n, LB lo e.1 ∧ UB hi e.1) ∧ KSorted (toListN n)
  | .leaf es, order, lo, hi => fun h => by
    obtain ⟨_, hs, hb⟩ := wfN_leaf_iff.1 h
    exact ⟨by simpa [toListN] using hb, by simpa [toListN] using hs⟩
  | .internal ch, order, lo, hi => fun h => by
    obtain ⟨_, hch⟩ := wfN_internal_iff.1 h
    simpa [toListN] using wf_entries_C ch order lo hi hch

theorem wf_entries_C : ∀ (ch : Chain) (order : Nat) (lo hi : Option Int),
    wfC order lo hi ch = true →
    (∀ e ∈ toListC ch, LB lo e.1 ∧ UB hi e.1) ∧ KSorted (toListC ch)
  | .last c, order, lo, hi => fun h => by
    simpa [toListC] using wf_entries_N c order lo hi (wfC_last_iff.1 h)
  | .cons c0 k1 rest, order, lo, hi => fun h => by
    obtain ⟨hslb, hub, hc0, hrest⟩ := wfC_cons_iff.1 h
    obtain ⟨hb0, hs0⟩ := wf_entries_N c0 order lo (some k1) hc0
    obtain ⟨hbr, hsr⟩ := wf_entries_C rest order (some k1) hi hrest
    simp only [toListC]
    constructor
    · intro e he
      rcases List.mem_append.1 he with he | he
      · obtain ⟨hl, hu⟩ := hb0 e he
        exact ⟨hl, UB.of_lt (by simpa using hu) hub⟩
      · obtain ⟨hl, hu⟩ := hbr e he
        exact ⟨(hslb.of_le (by simpa using hl)).toLB, hu⟩
    · refine List.pairwise_append.2 ⟨hs0, hsr, ?_⟩
      intro a ha b hb
      have hua : a.1 < k1 := by simpa using (hb0 a ha).2
      have hlb : k1 ≤ b.1 := by simpa using (hbr b hb).1
      omega
end

/-! ### splitChain: keys, leaves and well-formedness of the two halves -/

theorem splitChain_parts : ∀ (j : Nat) (ch : Chain), j < numKeys ch →
    chainKeys ch = chainKeys (splitChain j ch).1
        ++ (splitChain j ch).2.1 :: chainKeys (splitChain j ch).2.2
    ∧ numKeys (splitChain j ch).1 = j
    ∧ numKeys (splitChain j ch).2.2 = numKeys ch - j - 1
    ∧ leavesC (splitChain j ch).1 ++ leavesC (splitChain j ch).2.2 = leavesC ch
  | j, .last _, h => by simp [numKeys] at h
  | 0, .cons c0 k1 rest, _ => by
    simp [splitChain, chainKeys, numKeys, leavesC]
  | j + 1, .cons c0 k1 rest, h => by
    have hj : j < numKeys rest := by simpa [numKeys] using h
    rcases hsp : splitChain j rest with ⟨l, s, r⟩
    obtain ⟨hk, hnl, hnr, hlv⟩ := splitChain_parts j rest hj
    rw [hsp] at hk hnl hnr hlv
    dsimp only at hk hnl hnr hlv
    simp only [splitChain, hsp, chainKeys, numKeys, leavesC]
    refine ⟨by rw [hk]; simp, by omega, by omega, ?_⟩
    rw [List.append_assoc, hlv]

theorem splitChain_wf : ∀ (j : Nat) (ch : Chain) (order : Nat) (lo hi : Option Int),
    wfC order lo hi ch = true → j < numKeys ch →
    wfC order lo (some (splitChain j ch).2.1) (splitChain j ch).1 = true
    ∧ wfC order (some (splitChain j ch).2.1) hi (splitChain j ch).2.2 = true
    ∧ SLB lo (splitChain j ch).2.1 ∧ UB hi (splitChain j ch).2.1
  | j, .last _, order, lo, hi => fun _ hlt => by simp [numKeys] at hlt
  | 0, .cons c0 k1 rest, order, lo, hi => fun hwf _ => by
    obtain ⟨hslb, hub, hc0, hrest⟩ := wfC_cons_iff.1 hwf
    simp only [splitChain]
    exact ⟨wfC_last_iff.2 hc0, hrest, hslb, hub⟩
  | j + 1, .cons c0 k1 rest, order, lo, hi => fun hwf hlt => by
    obtain ⟨hslb, hub, hc0, hrest⟩ := wfC_cons_iff.1 hwf
    have hj : j < numKeys rest := by simpa [numKeys] using hlt
    rcases hsp : splitChain j rest with ⟨l, s, r⟩
    obtain ⟨hwl, hwr, hsl, hur⟩ := splitChain_wf j rest order (some k1) hi hrest hj
    rw [hsp] at hwl hwr hsl hur
    dsimp only at hwl hwr hsl hur
    simp only [splitChain, hsp]
    refine ⟨?_, hwr, ?_, hur⟩
    · exact wfC_cons_iff.2 ⟨hslb, by simpa using hsl, hc0, hwl⟩
    · exact hslb.of_le (le_of_lt (by simpa using hsl))

/-! ### Decomposition of the leaf chain around the located leaf -/

mutual
theorem findLeaf_decomp_N : ∀ (n : Node) (order : Nat) (lo hi : Option Int) (k : Int),
    wfN order lo hi n = true → LB lo k → UB hi k →
    ∃ P S, leavesN n = P ++ findLeafN n k :: S
      ∧ (∀ e ∈ P.flatten, e.1 < k) ∧ (∀ e ∈ S.flatten, k < e.1)
  | .leaf es, order, lo, hi, k => fun _ _ _ =>
    ⟨[], [], by simp [leavesN, findLeafN], by simp, by simp⟩
  | .internal ch, order, lo, hi, k => fun h hlb hub => by
    obtain ⟨_, hch⟩ := wfN_internal_iff.1 h
    simpa [leavesN, findLeafN] using findLeaf_decomp_C ch order lo hi k hch hlb hub

theorem findLeaf_decomp_C : ∀ (ch : Chain) (order : Nat) (lo hi : Option Int) (k : Int),
    wfC order lo hi ch = true → LB lo k → UB hi k →
    ∃ P S, leavesC ch = P ++ findLeafC ch k :: S
      ∧ (∀ e ∈ P.flatten, e.1 < k) ∧ (∀ e ∈ S.flatten, k < e.1)
  | .last c, order, lo, hi, k => fun h hlb hub => by
    simpa [leavesC, findLeafC] using
      findLeaf_decomp_N c order lo hi k (wfC_last_iff.1 h) hlb hub
  | .cons c0 k1 rest, order, lo, hi, k => fun h hlb hub => by
    obtain ⟨hslb, hub1, hc0, hrest⟩ := wfC_cons_iff.1 h
    by_cases hk : k < k1
    · obtain ⟨P, S, hdec, hP, hS⟩ :=
        findLeaf_decomp_N c0 order lo (some k1) k hc0 hlb (by simpa using hk)
      refine ⟨P, S ++ leavesC rest, ?_, hP, ?_⟩
      · simp only [leavesC, findLeafC, compare_ints_lt_iff, if_pos hk, hdec]
        simp
      · intro e he
        rw [List.flatten_append] at he
        rcases List.mem_append.1 he with he | he
        · exact hS e he
        · have : e ∈ toListC rest := by rw [toListC_eq_flatten]; exact he
          have hl := ((wf_entries_C rest order (some k1) hi hrest).1 e this).1
          have : k1 ≤ e.1 := by simpa using hl
          omega
    · obtain ⟨P, S, hdec, hP, hS⟩ :=
        findLeaf_decomp_C rest order (some k1) hi k hrest (by simp; omega) hub
      refine ⟨leavesN c0 ++ P, S, ?_, ?_, hS⟩
      · simp only [leavesC, findLeafC, compare_ints_lt_iff, if_neg hk, hdec]
        simp
      · intro e he
        rw [List.flatten_append] at he
        rcases List.mem_append.1 he with he | he
        · have : e ∈ toListN c0 := by rw [toListN_eq_flatten]; exact he
          have hu := ((wf_entries_N c0 order lo (some k1) hc0).1 e this).2
          have : e.1 < k1 := by simpa using hu
          omega
        · exact hP e he
end

/-! ### Correctness of point lookup -/

theorem find_present {order : Nat} {root : Node} {k v : Int}
    (hwf : wfN order none none root = true) (hmem : (k, v) ∈ toListN root) :
    findInLeaf (findLeafN root k) k = some v := by
  obtain ⟨P, S, hdec, hP, hS⟩ :=
    findLeaf_decomp_N root order none none k hwf trivial trivial
  have hflat : toListN root = P.flatten ++ (findLeafN root k ++ S.flatten) := by
    rw [toListN_eq_flatten, hdec, List.flatten_append, List.flatten_cons]
  have hsorted := (wf_entries_N root order none none hwf).2
  have hmem' : (k, v) ∈ findLeafN root k := by
    rw [hflat] at hmem
    rcases List.mem_append.1 hmem with h | h
    · exact absurd (hP _ h) (lt_irrefl k)
    · rcases List.mem_append.1 h with h | h
      · exact h
      · exact absurd (hS _ h) (lt_irrefl k)
  have hsub : List.Sublist (findLeafN root k) (toListN root) := by
    rw [hflat]
    exact (List.sublist_append_left _ _).trans (List.sublist_append_right _ _)
  exact findInLeaf_eq_some (KSorted.sublist hsub hsorted) hmem'

theorem find_absent {order : Nat} {root : Node} {k : Int}
    (hwf : wfN order none none root = true) (hne : ∀ e ∈ toListN root, e.1 ≠ k) :
    findInLeaf (findLeafN root k) k = none := by
  obtain ⟨P, S, hdec, hP, hS⟩ :=
    findLeaf_decomp_N root order none none k hwf trivial trivial
  apply findInLeaf_eq_none
  intro e he
  refine hne e ?_
  rw [toListN_eq_flatten, hdec, List.flatten_append, List.flatten_cons]
  exact List.mem_append.2 (Or.inr (List.mem_append.2 (Or.inl he)))

/-! ### The delete path -/

mutual
theorem delNode_master : ∀ (n : Node) (order : Nat) (lo hi : Option Int) (k : Int),
    wfN order lo hi n = true → LB lo k → UB hi k →
    wfN order lo hi (delNode k n) = true
    ∧ toListN (delNode k n) = removeFirst k (toListN n)
  | .leaf es, order, lo, hi, k => fun h _ _ => by
    obtain ⟨hlen, hs, hb⟩ := wfN_leaf_iff.1 h
    have hsub := removeFirst_sublist k es
    refine ⟨wfN_leaf_iff.2 ⟨le_trans hsub.length_le hlen,
      KSorted.sublist hsub hs, fun e he => hb e (hsub.subset he)⟩, ?_⟩
    simp [delNode, toListN]
  | .internal ch, order, lo, hi, k => fun h hlb hub => by
    obtain ⟨hcap, hch⟩ := wfN_internal_iff.1 h
    obtain ⟨hwf', htl, hnum⟩ := delGo_master ch order lo hi k hch hlb hub
    refine ⟨wfN_internal_iff.2 ⟨by rw [hnum]; exact hcap, hwf'⟩, ?_⟩
    simpa [delNode, toListN] using htl

theorem delGo_master : ∀ (ch : Chain) (order : Nat) (lo hi : Option Int) (k : Int),
    wfC order lo hi ch = true → LB lo k → UB hi k →
    wfC order lo hi (delGo k ch) = true
    ∧ toListC (delGo k ch) = removeFirst k (toListC ch)
    ∧ numKeys (delGo k ch) = numKeys ch
  | .last c, order, lo, hi, k => fun h hlb hub => by
    obtain ⟨hwf', htl⟩ := delNode_master c order lo hi k (wfC_last_iff.1 h) hlb hub
    exact ⟨wfC_last_iff.2 hwf', by simpa [delGo, toListC] using htl, by simp [delGo, numKeys]⟩
  | .cons c0 k1 rest, order, lo, hi, k => fun h hlb hub => by
    obtain ⟨hslb, hub1, hc0, hrest⟩ := wfC_cons_iff.1 h
    by_cases hk : k < k1
    · obtain ⟨hwf', htl⟩ :=
        delNode_master c0 order lo (some k1) k hc0 hlb (by simpa using hk)
      have hrne : ∀ b ∈ toListC rest, b.1 ≠ k := by
        intro b hb
        have := ((wf_entries_C rest order (some k1) hi hrest).1 b hb).1
        simp at this; omega
      refine ⟨?_, ?_, ?_⟩
      · simp only [delGo, compare_ints_lt_iff, if_pos hk]
        exact wfC_cons_iff.2 ⟨hslb, hub1, hwf', hrest⟩
      · simp only [delGo, compare_ints_lt_iff, if_pos hk, toListC, htl]
        rw [removeFirst_append_notmem_right hrne]
      · simp [delGo, compare_ints_lt_iff, if_pos hk, numKeys]
    · obtain ⟨hwf', htl, hnum⟩ := delGo_master rest order (some k1) hi k hrest
        (by simp; omega) hub
      have hlne : ∀ a ∈ toListN c0, a.1 ≠ k := by
        intro a ha
        have := ((wf_entries_N c0 order lo (some k1) hc0).1 a ha).2
        simp at this; omega
      refine ⟨?_, ?_, ?_⟩
      · simp only [delGo, compare_ints_lt_iff, if_neg hk]
        exact wfC_cons_iff.2 ⟨hslb, hub1, hc0, hwf'⟩
      · simp only [delGo, compare_ints_lt_iff, if_neg hk, toListC, htl]
        rw [removeFirst_append_notmem_left hlne]
      · simp [delGo, compare_ints_lt_iff, if_neg hk, numKeys, hnum]
end

theorem delete_present {t : BPlusTree} {k v : Int}
    (hwf : wfN t.order none none t.root = true) (hmem : (k, v) ∈ toListN t.root) :
    ∃ A B, toListN t.root = A ++ (k, v) :: B ∧ (∀ e ∈ A, e.1 ≠ k)
      ∧ bplus_tree_delete (some t) (some k)
          = (0, some { t with root := delNode k t.root },
             if t.hasDestroy then [v] else [])
      ∧ toListN (delNode k t.root) = A ++ B := by
  have hfind := find_present hwf hmem
  obtain ⟨A, B, hAB, hA, hrem⟩ :=
    removeFirst_decomp (wf_entries_N t.root t.order none none hwf).2 hmem
  have hdel := (delNode_master t.root t.order none none k hwf trivial trivial).2
  exact ⟨A, B, hAB, hA, by simp [bplus_tree_delete, hfind], by rw [hdel, hrem]⟩

theorem delete_absent {t : BPlusTree} {k : Int}
    (hwf : wfN t.order none none t.root = true) (hne : ∀ e ∈ toListN t.root, e.1 ≠ k) :
    bplus_tree_delete (some t) (some k) = (-1, some t, []) := by
  simp [bplus_tree_delete, find_absent hwf hne]

/-! ### Decomposition of the leaf chain for range scans -/

mutual
theorem chainFrom_decomp_N : ∀ (n : Node) (order : Nat) (lo hi : Option Int) (k : Int),
    wfN order lo hi n = true → LB lo k → UB hi k →
    ∃ P tail, leavesN n = P ++ chainFromN k n
      ∧ chainFromN k n = findLeafN n k :: tail
      ∧ (∀ e ∈ P.flatten, e.1 < k) ∧ (∀ e ∈ tail.flatten, k < e.1)
  | .leaf es, order, lo, hi, k => fun _ _ _ =>
    ⟨[], [], by simp [leavesN, chainFromN], by simp [chainFromN, findLeafN],
      by simp, by simp⟩
  | .internal ch, order, lo, hi, k => fun h hlb hub => by
    obtain ⟨_, hch⟩ := wfN_internal_iff.1 h
    simpa [leavesN, chainFromN, findLeafN] using
      chainFrom_decomp_C ch order lo hi k hch hlb hub

theorem chainFrom_decomp_C : ∀ (ch : Chain) (order : Nat) (lo hi : Option Int) (k : Int),
    wfC order lo hi ch = true → LB lo k → UB hi k →
    ∃ P tail, leavesC ch = P ++ chainFromC k ch
      ∧ chainFromC k ch = findLeafC ch k :: tail
      ∧ (∀ e ∈ P.flatten, e.1 < k) ∧ (∀ e ∈ tail.flatten, k < e.1)
  | .last c, order, lo, hi, k => fun h hlb hub => by
    simpa [leavesC, chainFromC, findLeafC] using
      chainFrom_decomp_N c order lo hi k (wfC_last_iff.1 h) hlb hub
  | .cons c0 k1 rest, order, lo, hi, k => fun h hlb hub => by
    obtain ⟨hslb, hub1, hc0, hrest⟩ := wfC_cons_iff.1 h
    by_cases hk : k < k1
    · obtain ⟨P, tail, hdec, hfrom, hP, htail⟩ :=
        chainFrom_decomp_N c0 order lo (some k1) k hc0 hlb (by simpa using hk)
      refine ⟨P, tail ++ leavesC rest, ?_, ?_, hP, ?_⟩
      · simp only [leavesC, chainFromC, compare_ints_lt_iff, if_pos hk, hdec]
        simp
      · simp only [chainFromC, findLeafC, compare_ints_lt_iff, if_pos hk, hfrom]
        simp
      · intro e he
        rw [List.flatten_append] at he
        rcases List.mem_append.1 he with he | he
        · exact htail e he
        · have hm : e ∈ toListC rest := by rw [toListC_eq_flatten]; exact he
          have := ((wf_entries_C rest order (some k1) hi hrest).1 e hm).1
          simp at this; omega
    · obtain ⟨P, tail, hdec, hfrom, hP, htail⟩ :=
        chainFrom_decomp_C rest order (some k1) hi k hrest (by simp; omega) hub
      refine ⟨leavesN c0 ++ P, tail, ?_, ?_, ?_, htail⟩
      · simp only [leavesC, chainFromC, compare_ints_lt_iff, if_neg hk, hdec]
        simp
      · simp only [chainFromC, compare_ints_lt_iff, if_neg hk, hfrom, findLeafC]
      · intro e he
        rw [List.flatten_append] at he
        rcases List.mem_append.1 he with he | he
        · have hm : e ∈ toListN c0 := by rw [toListN_eq_flatten]; exact he
          have := ((wf_entries_N c0 order lo (some k1) hc0).1 e hm).2
          simp at this; omega
        · exact hP e he
end

/-! ### The range-scan loops -/

theorem scanEntries_spec {hi : Int} :
    ∀ (es : List Entry) (cap : Nat), KSorted es →
      (scanEntries hi es cap).1
          = ((es.filter (fun e => decide (e.1 ≤ hi))).map (·.2)).take cap
      ∧ ((scanEntries hi es cap).2 = true → ∃ e ∈ es, hi < e.1)
  | [], cap, _ => by simp [scanEntries]
  | (k1, v1) :: tl, cap, hs => by
    obtain ⟨hh, ht⟩ := List.pairwise_cons.1 hs
    by_cases hcap : cap = 0
    · subst hcap
      simp [scanEntries]
    · by_cases hhi : hi < k1
      · simp only [scanEntries, if_neg hcap, compare_ints_pos_iff, if_pos hhi]
        constructor
        · have hnil : ((k1, v1) :: tl).filter (fun e => decide (e.1 ≤ hi)) = [] := by
            rw [List.filter_eq_nil_iff]
            intro e he
            rcases List.mem_cons.1 he with rfl | he
            · simp; omega
            · have := hh e he; simp; omega
          rw [hnil]; simp
        · exact fun _ => ⟨(k1, v1), List.mem_cons_self _ _, hhi⟩
      · simp only [scanEntries, if_neg hcap, compare_ints_pos_iff, if_neg hhi]
        obtain ⟨h1, h2⟩ := scanEntries_spec tl (cap - 1) ht
        rcases hse : scanEntries hi tl (cap - 1) with ⟨vs, d⟩
        rw [hse] at h1 h2
        dsimp only at h1 h2 ⊢
        constructor
        · rw [h1, List.filter_cons_of_pos (by simp; omega), List.map_cons]
          cases cap with
          | zero => exact absurd rfl hcap
          | succ m => simp [List.take_succ_cons]
        · intro hd
          obtain ⟨e, he, hee⟩ := h2 hd
          exact ⟨e, List.mem_cons_of_mem _ he, hee⟩

theorem scanChain_spec {hi : Int} :
    ∀ (chain : List (List Entry)) (cap : Nat), KSorted chain.flatten →
      scanChain hi cap chain
        = ((chain.flatten.filter (fun e => decide (e.1 ≤ hi))).map (·.2)).take cap
  | [], cap, _ => by simp [scanChain]
  | es :: rest, cap, hs => by
    rw [List.flatten_cons] at hs
    have hes : KSorted es := KSorted.sublist (List.sublist_append_left _ _) hs
    have hrest : KSorted rest.flatten :=
      KSorted.sublist (List.sublist_append_right _ _) hs
    have hcross : ∀ a ∈ es, ∀ b ∈ rest.flatten, a.1 < b.1 :=
      (List.pairwise_append.1 hs).2.2
    obtain ⟨h1, h2⟩ := scanEntries_spec es cap hes
    rcases hse : scanEntries hi es cap with ⟨vs, d⟩
    rw [hse] at h1 h2
    dsimp only at h1 h2
    simp only [scanChain, hse]
    by_cases hd : d = true
    · rw [if_pos hd]
      obtain ⟨e, he, hee⟩ := h2 hd
      have hnil : rest.flatten.filter (fun e => decide (e.1 ≤ hi)) = [] := by
        rw [List.filter_eq_nil_iff]
        intro b hb
        have := hcross e he b hb
        simp; omega
      rw [List.flatten_cons, List.filter_append, hnil, List.append_nil, h1]
    · rw [if_neg hd, scanChain_spec rest (cap - vs.length) hrest,
        List.flatten_cons, List.filter_append, List.map_append,
        List.take_append_eq_append_take, ← h1]
      have hlen : vs.length
          = min cap (((es.filter (fun e => decide (e.1 ≤ hi))).map (·.2)).length) := by
        rw [h1]; exact List.length_take _ _
      have harg : cap - vs.length
          = cap - ((es.filter (fun e => decide (e.1 ≤ hi))).map (·.2)).length := by
        omega
      rw [harg]

theorem dropWhile_lt_eq_filter (lo : Int) :
    ∀ {es : List Entry}, KSorted es →
      es.dropWhile (fun e => compare_ints e.1 lo < 0)
        = es.filter (fun e => decide (lo ≤ e.1))
  | [], _ => rfl
  | (k1, v1) :: tl, hs => by
    obtain ⟨hh, ht⟩ := List.pairwise_cons.1 hs
    by_cases h : k1 < lo
    · rw [List.dropWhile_cons, if_pos (by simpa using h),
        List.filter_cons_of_neg (by simp; omega)]
      exact dropWhile_lt_eq_filter lo ht
    · rw [List.dropWhile_cons, if_neg (by simpa using h),
        List.filter_cons_of_pos (by simp; omega)]
      refine congrArg _ ?_
      symm
      rw [List.filter_eq_self]
      intro e he
      have := hh e he
      simp
      omega

theorem find_range_spec (t : BPlusTree) (lo hi : Int) (cap : Nat)
    (hwf : wfN t.order none none t.root = true) :
    bplus_tree_find_range t lo hi cap
      = (((toListN t.root).filter
            (fun e => decide (lo ≤ e.1) && decide (e.1 ≤ hi))).map (·.2)).take cap := by
  by_cases hgt : hi < lo
  · rw [bplus_tree_find_range, if_pos (by simpa using hgt)]
    have hnil : (toListN t.root).filter
        (fun e => decide (lo ≤ e.1) && decide (e.1 ≤ hi)) = [] := by
      rw [List.filter_eq_nil_iff]
      intro e _
      simp
      omega
    rw [hnil]
    simp
  · obtain ⟨P, tail, hdec, hfrom, hP, htail⟩ :=
      chainFrom_decomp_N t.root t.order none none lo hwf trivial trivial
    have hsorted := (wf_entries_N t.root t.order none none hwf).2
    have hgt' : ¬ (0 < compare_ints lo hi) := by simpa using hgt
    simp only [bplus_tree_find_range, if_neg hgt', hfrom]
    set es := findLeafN t.root lo with hes_def
    have hflat : toListN t.root = P.flatten ++ (es ++ tail.flatten) := by
      rw [toListN_eq_flatten, hdec, hfrom, List.flatten_append, List.flatten_cons]
    have hsub1 : List.Sublist (es ++ tail.flatten) (toListN t.root) := by
      rw [hflat]; exact List.sublist_append_right _ _
    have hsuffix : KSorted (es ++ tail.flatten) := KSorted.sublist hsub1 hsorted
    have hes_sorted : KSorted es :=
      KSorted.sublist (List.sublist_append_left _ _) hsuffix
    have hdw := dropWhile_lt_eq_filter lo hes_sorted
    have hchain_sorted :
        KSorted ((es.filter (fun e => decide (lo ≤ e.1))) :: tail).flatten := by
      rw [List.flatten_cons]
      exact KSorted.sublist
        (List.Sublist.append (List.filter_sublist _) (List.Sublist.refl _)) hsuffix
    rw [hdw, scanChain_spec _ cap hchain_sorted, List.flatten_cons]
    have hfilters :
        ((es.filter (fun e => decide (lo ≤ e.1))) ++ tail.flatten).filter
            (fun e => decide (e.1 ≤ hi))
          = (toListN t.root).filter
              (fun e => decide (lo ≤ e.1) && decide (e.1 ≤ hi)) := by
      rw [hflat, List.filter_append, List.filter_append, List.filter_append,
        List.filter_filter]
      have h1 : P.flatten.filter (fun e => decide (lo ≤ e.1) && decide (e.1 ≤ hi))
          = [] := by
        rw [List.filter_eq_nil_iff]
        intro e he
        have := hP e he
        simp
        omega
      have h2 : es.filter (fun a => decide (a.1 ≤ hi) && decide (lo ≤ a.1))
          = es.filter (fun e => decide (lo ≤ e.1) && decide (e.1 ≤ hi)) := by
        apply List.filter_congr
        intro e _
        rw [Bool.and_comm]
      have h3 : tail.flatten.filter (fun e => decide (e.1 ≤ hi))
          = tail.flatten.filter (fun e => decide (lo ≤ e.1) && decide (e.1 ≤ hi)) := by
        apply List.filter_congr
        intro e he
        have := htail e he
        simp
        omega
      rw [h1, h2, h3]
      simp
    rw [hfilters]

/-! ### The insert path: master lemma -/

mutual
theorem insNode_master : ∀ (n : Node) (order : Nat) (lo hi : Option Int) (k v : Int),
    3 ≤ order → wfN order lo hi n = true → LB lo k → UB hi k →
    (∀ e ∈ toListN n, e.1 ≠ k) →
    ∃ P S, leavesN n = P ++ findLeafN n k :: S
      ∧ (∀ e ∈ P.flatten, e.1 < k) ∧ (∀ e ∈ S.flatten, k < e.1)
      ∧ resLeaves (insNode order k v n)
          = P ++ (newLeaves order k v (findLeafN n k) ++ S)
      ∧ insWf order lo hi (insNode order k v n)
  | .leaf es, order, lo, hi, k, v => fun hord hwf hlb hub hfresh => by
    obtain ⟨hlen, hs, hb⟩ := wfN_leaf_iff.1 hwf
    have hfresh' : ∀ e ∈ es, e.1 ≠ k := by simpa [toListN] using hfresh
    have htemp_sorted : KSorted (insertSorted k v es) := insertSorted_sorted hs hfresh'
    have htb : ∀ e ∈ insertSorted k v es, LB lo e.1 ∧ UB hi e.1 := by
      intro e he
      rcases (mem_insertSorted _).1 he with rfl | he
      · exact ⟨hlb, hub⟩
      · exact hb e he
    refine ⟨[], [], by simp [leavesN, findLeafN], by simp, by simp, ?_, ?_⟩
    · by_cases hroom : es.length < order - 1
      · simp [insNode, insLeaf, if_pos hroom, resLeaves, leavesN, newLeaves, findLeafN]
      · simp [insNode, insLeaf, if_neg hroom, resLeaves, leavesN, newLeaves, findLeafN]
    · by_cases hroom : es.length < order - 1
      · simp only [insNode, insLeaf, if_pos hroom, insWf]
        refine wfN_leaf_iff.2 ⟨?_, htemp_sorted, htb⟩
        rw [insertSorted_length]
        omega
      · have hlen_es : es.length = order - 1 := by omega
        simp only [insNode, insLeaf, if_neg hroom, insWf]
        set temp := insertSorted k v es with htemp_def
        set s := (order + 1) / 2 with hs_def
        have hlen_temp : temp.length = order := by
          rw [htemp_def, insertSorted_length]; omega
        have hs1 : 1 ≤ s := by omega
        have hslt : s < order := by omega
        have hdl : (temp.drop s).length = order - s := by simp [hlen_temp]
        obtain ⟨e0, dtl, hd⟩ : ∃ e0 dtl, temp.drop s = e0 :: dtl := by
          cases hdrop : temp.drop s with
          | nil => rw [hdrop] at hdl; simp at hdl; omega
          | cons a b => exact ⟨a, b, rfl⟩
        have hcross : ∀ a ∈ temp.take s, ∀ b ∈ temp.drop s, a.1 < b.1 := by
          have hx : KSorted (temp.take s ++ temp.drop s) := by
            rw [List.take_append_drop]; exact htemp_sorted
          exact (List.pairwise_append.1 hx).2.2
        have he0 : e0 ∈ temp.drop s := by rw [hd]; exact List.mem_cons_self _ _
        have he0temp : e0 ∈ temp := (List.drop_sublist _ _).subset he0
        rw [hd]
        simp only [List.headD_cons]
        refine ⟨?_, ?_, ?_, ?_⟩
        · refine wfN_leaf_iff.2 ⟨?_, ?_, ?_⟩
          · simp [List.length_take, hlen_temp]
            omega
          · exact KSorted.sublist (List.take_sublist _ _) htemp_sorted
          · intro e he
            have hetemp : e ∈ temp := (List.take_sublist _ _).subset he
            exact ⟨(htb e hetemp).1, by simpa using hcross e he e0 he0⟩
        · refine wfN_leaf_iff.2 ⟨?_, ?_, ?_⟩
          · rw [← hd]
            omega
          · rw [← hd]
            exact KSorted.sublist (List.drop_sublist _ _) htemp_sorted
          · intro e he
            have hetemp : e ∈ temp := by
              refine (List.drop_sublist s temp).subset ?_
              rw [hd]; exact he
            refine ⟨?_, (htb e hetemp).2⟩
            rcases List.mem_cons.1 he with rfl | he'
            · simp
            · have hdrop_sorted : KSorted (e0 :: dtl) := by
                rw [← hd]
                exact KSorted.sublist (List.drop_sublist _ _) htemp_sorted
              have := (List.pairwise_cons.1 hdrop_sorted).1 e he'
              simp
              omega
        · obtain ⟨t0, ttl, ht⟩ : ∃ t0 ttl, temp = t0 :: ttl := by
            cases htc : temp with
            | nil => rw [htc] at hlen_temp; simp at hlen_temp; omega
            | cons a b => exact ⟨a, b, rfl⟩
          have ht0 : t0 ∈ temp.take s := by
            rw [ht, show s = s - 1 + 1 from by omega, List.take_succ_cons]
            exact List.mem_cons_self _ _
          have hlt : t0.1 < e0.1 := hcross t0 ht0 e0 he0
          have hlbt0 : LB lo t0.1 :=
            (htb t0 (by rw [ht]; exact List.mem_cons_self _ _)).1
          exact hlbt0.slb_of_lt hlt
        · exact (htb e0 he0temp).2
  | .internal ch, order, lo, hi, k, v => fun hord hwf hlb hub hfresh => by
    obtain ⟨hcap, hch⟩ := wfN_internal_iff.1 hwf
    have hfresh' : ∀ e ∈ toListC ch, e.1 ≠ k := by simpa [toListN] using hfresh
    obtain ⟨P, S, hdec, hP, hS, hres, hwf', hnlo, hnhi⟩ :=
      insGo_master ch order lo hi k v hord hch hlb hub hfresh'
    have hkey : resLeaves (insNode order k v (.internal ch))
        = P ++ (newLeaves order k v (findLeafC ch k) ++ S)
      ∧ insWf order lo hi (insNode order k v (.internal ch)) := by
      by_cases hle : numKeys (insGo order k v ch) ≤ order - 1
      · have hI : insNode order k v (.internal ch)
            = .one (.internal (insGo order k v ch)) := by
          simp [insNode, hle]
        rw [hI]
        exact ⟨by simpa [resLeaves, leavesN] using hres,
          wfN_internal_iff.2 ⟨hle, hwf'⟩⟩
      · have hn : numKeys (insGo order k v ch) = order := by omega
        rcases hsp : splitChain (order / 2) (insGo order k v ch) with ⟨l, s, r⟩
        have hI : insNode order k v (.internal ch)
            = .split (.internal l) s (.internal r) := by
          simp [insNode, hle, hsp]
        have hj : order / 2 < numKeys (insGo order k v ch) := by omega
        obtain ⟨hkeq, hnl, hnr, hlv⟩ := splitChain_parts (order / 2) _ hj
        obtain ⟨hwl, hwr, hsl, hur⟩ := splitChain_wf (order / 2) _ order lo hi hwf' hj
        rw [hsp] at hkeq hnl hnr hlv hwl hwr hsl hur
        dsimp only at hkeq hnl hnr hlv hwl hwr hsl hur
        rw [hI]
        constructor
        · simp only [resLeaves, leavesN]
          rw [hlv]
          exact hres
        · exact ⟨wfN_internal_iff.2 ⟨by omega, hwl⟩,
            wfN_internal_iff.2 ⟨by omega, hwr⟩, hsl, hur⟩
    exact ⟨P, S, by simpa [leavesN, findLeafN] using hdec, hP, hS,
      by simpa only [findLeafN] using hkey.1, hkey.2⟩

theorem insGo_master : ∀ (ch : Chain) (order : Nat) (lo hi : Option Int) (k v : Int),
    3 ≤ order → wfC order lo hi ch = true → LB lo k → UB hi k →
    (∀ e ∈ toListC ch, e.1 ≠ k) →
    ∃ P S, leavesC ch = P ++ findLeafC ch k :: S
      ∧ (∀ e ∈ P.flatten, e.1 < k) ∧ (∀ e ∈ S.flatten, k < e.1)
      ∧ leavesC (insGo order k v ch)
          = P ++ (newLeaves order k v (findLeafC ch k) ++ S)
      ∧ wfC order lo hi (insGo order k v ch) = true
      ∧ numKeys ch ≤ numKeys (insGo order k v ch)
      ∧ numKeys (insGo order k v ch) ≤ numKeys ch + 1
  | .last c, order, lo, hi, k, v => fun hord hwf hlb hub hfresh => by
    have hwfc := wfC_last_iff.1 hwf
    have hfresh' : ∀ e ∈ toListN c, e.1 ≠ k := by simpa [toListC] using hfresh
    obtain ⟨P, S, hdec, hP, hS, hres, hiwf⟩ :=
      insNode_master c order lo hi k v hord hwfc hlb hub hfresh'
    rcases hI : insNode order k v c with ⟨c'⟩ | ⟨l, s, r⟩
    · rw [hI] at hres hiwf
      simp only [resLeaves] at hres
      simp only [insWf] at hiwf
      refine ⟨P, S, by simpa [leavesC, findLeafC] using hdec, hP, hS, ?_, ?_, ?_, ?_⟩
      · simp only [insGo, hI, leavesC, findLeafC]
        exact hres
      · simp only [insGo, hI]
        exact wfC_last_iff.2 hiwf
      · simp [insGo, hI, numKeys]
      · simp [insGo, hI, numKeys]
    · rw [hI] at hres hiwf
      simp only [resLeaves] at hres
      obtain ⟨hwl, hwr, hsl, hur⟩ := hiwf
      refine ⟨P, S, by simpa [leavesC, findLeafC] using hdec, hP, hS, ?_, ?_, ?_, ?_⟩
      · simp only [insGo, hI, leavesC, findLeafC]
        simpa using hres
      · simp only [insGo, hI]
        exact wfC_cons_iff.2 ⟨hsl, hur, hwl, wfC_last_iff.2 hwr⟩
      · simp [insGo, hI, numKeys]
      · simp [insGo, hI, numKeys]
  | .cons c0 k1 rest, order, lo, hi, k, v => fun hord hwf hlb hub hfresh => by
    obtain ⟨hslb, hub1, hc0, hrest⟩ := wfC_cons_iff.1 hwf
    by_cases hk : k < k1
    · have hfresh' : ∀ e ∈ toListN c0, e.1 ≠ k := fun e he =>
        hfresh e (by simp only [toListC]; exact List.mem_append.2 (Or.inl he))
      obtain ⟨P, S, hdec, hP, hS, hres, hiwf⟩ :=
        insNode_master c0 order lo (some k1) k v hord hc0 hlb (by simpa using hk) hfresh'
      have hrest_gt : ∀ e ∈ (leavesC rest).flatten, k < e.1 := by
        intro e he
        have hm : e ∈ toListC rest := by rw [toListC_eq_flatten]; exact he
        have := ((wf_entries_C rest order (some k1) hi hrest).1 e hm).1
        simp at this
        omega
      have hSbound : ∀ e ∈ (S ++ leavesC rest).flatten, k < e.1 := by
        intro e he
        rw [List.flatten_append] at he
        rcases List.mem_append.1 he with he | he
        · exact hS e he
        · exact hrest_gt e he
      rcases hI : insNode order k v c0 with ⟨c'⟩ | ⟨l, s, r⟩
      · rw [hI] at hres hiwf
        simp only [resLeaves] at hres
        simp only [insWf] at hiwf
        refine ⟨P, S ++ leavesC rest, ?_, hP, hSbound, ?_, ?_, ?_, ?_⟩
        · simp only [leavesC, findLeafC, compare_ints_lt_iff, if_pos hk, hdec]
          simp
        · simp only [insGo, compare_ints_lt_iff, if_pos hk, hI, leavesC,
            findLeafC, hres]
          simp
        · simp only [insGo, compare_ints_lt_iff, if_pos hk, hI]
          exact wfC_cons_iff.2 ⟨hslb, hub1, hiwf, hrest⟩
        · simp [insGo, compare_ints_lt_iff, if_pos hk, hI, numKeys]
        · simp [insGo, compare_ints_lt_iff, if_pos hk, hI, numKeys]
      · rw [hI] at hres hiwf
        simp only [resLeaves] at hres
        obtain ⟨hwl, hwr, hsl, hur⟩ := hiwf
        have hsk1 : s < k1 := by simpa using hur
        refine ⟨P, S ++ leavesC rest, ?_, hP, hSbound, ?_, ?_, ?_, ?_⟩
        · simp only [leavesC, findLeafC, compare_ints_lt_iff, if_pos hk, hdec]
          simp
        · simp only [insGo, compare_ints_lt_iff, if_pos hk, hI, leavesC, findLeafC]
          rw [← List.append_assoc, hres]
          simp
        · simp only [insGo, compare_ints_lt_iff, if_pos hk, hI]
          refine wfC_cons_iff.2 ⟨hsl, UB.of_lt hsk1 hub1, hwl,
            wfC_cons_iff.2 ⟨by simpa using hsk1, hub1, hwr, hrest⟩⟩
        · simp [insGo, compare_ints_lt_iff, if_pos hk, hI, numKeys]
        · simp [insGo, compare_ints_lt_iff, if_pos hk, hI, numKeys]
    · have hk1le : LB (some k1) k := by simp; omega
      have hfresh' : ∀ e ∈ toListC rest, e.1 ≠ k := fun e he =>
        hfresh e (by simp only [toListC]; exact List.mem_append.2 (Or.inr he))
      obtain ⟨P, S, hdec, hP, hS, hres, hwf', hnlo, hnhi⟩ :=
        insGo_master rest order (some k1) hi k v hord hrest hk1le hub hfresh'
      have hc0_lt : ∀ e ∈ (leavesN c0).flatten, e.1 < k := by
        intro e he
        have hm : e ∈ toListN c0 := by rw [toListN_eq_flatten]; exact he
        have := ((wf_entries_N c0 order lo (some k1) hc0).1 e hm).2
        simp at this
        omega
      refine ⟨leavesN c0 ++ P, S, ?_, ?_, hS, ?_, ?_, ?_, ?_⟩
      · simp only [leavesC, findLeafC, compare_ints_lt_iff, if_neg hk, hdec]
        simp
      · intro e he
        rw [List.flatten_append] at he
        rcases List.mem_append.1 he with he | he
        · exact hc0_lt e he
        · exact hP e he
      · simp only [insGo, compare_ints_lt_iff, if_neg hk, leavesC, findLeafC, hres]
        simp
      · simp only [insGo, compare_ints_lt_iff, if_neg hk]
        exact wfC_cons_iff.2 ⟨hslb, hub1, hc0, hwf'⟩
      · simp only [insGo, compare_ints_lt_iff, if_neg hk, numKeys]
        omega
      · simp only [insGo, compare_ints_lt_iff, if_neg hk, numKeys]
        omega
end

/-! ### Corollaries of the insert master lemma -/

theorem resToList_eq_flatten : ∀ r : InsRes, resToList r = (resLeaves r).flatten
  | .one n => by simp [resToList, resLeaves, toListN_eq_flatten]
  | .split l _ r => by
    simp [resToList, resLeaves, toListN_eq_flatten, List.flatten_append]

theorem newLeaves_flatten (order : Nat) (k v : Int) (es : List Entry) :
    (newLeaves order k v es).flatten = insertSorted k v es := by
  unfold newLeaves
  split
  · simp
  · simp [List.take_append_drop]

theorem insNode_toList {n : Node} {order : Nat} {lo hi : Option Int} {k v : Int}
    (hord : 3 ≤ order) (hwf : wfN order lo hi n = true) (hlb : LB lo k) (hub : UB hi k)
    (hfresh : ∀ e ∈ toListN n, e.1 ≠ k) :
    resToList (insNode order k v n) = insertSorted k v (toListN n) := by
  obtain ⟨P, S, hdec, hP, hS, hres, _⟩ :=
    insNode_master n order lo hi k v hord hwf hlb hub hfresh
  rw [resToList_eq_flatten, hres, toListN_eq_flatten, hdec]
  simp only [List.flatten_append, List.flatten_cons]
  rw [newLeaves_flatten, insertSorted_append_left hP, insertSorted_append_right hS]

theorem insGo_numKeys_ge : ∀ (ch : Chain) (order : Nat) (k v : Int),
    numKeys ch ≤ numKeys (insGo order k v ch)
  | .last c, order, k, v => by
    rcases hI : insNode order k v c with ⟨c'⟩ | ⟨l, s, r⟩ <;>
      simp [insGo, hI, numKeys]
  | .cons c0 k1 rest, order, k, v => by
    by_cases hk : k < k1
    · rcases hI : insNode order k v c0 with ⟨c'⟩ | ⟨l, s, r⟩ <;>
        simp [insGo, compare_ints_lt_iff, if_pos hk, hI, numKeys]
    · have := insGo_numKeys_ge rest order k v
      simp only [insGo, compare_ints_lt_iff, if_neg hk, numKeys]
      omega

theorem insertRoot_rootHasKey {root : Node} {order : Nat} {k v : Int}
    (h : rootHasKey root = true) :
    rootHasKey (insertRoot order k v root) = true := by
  cases root with
  | leaf es =>
    simp only [insertRoot, insNode, insLeaf]
    by_cases hroom : es.length < order - 1
    · simp [if_pos hroom, rootHasKey]
    · simp [if_neg hroom, rootHasKey, numKeys]
  | internal ch =>
    have hge := insGo_numKeys_ge ch order k v
    have h1 : 1 ≤ numKeys ch := by simpa [rootHasKey] using h
    simp only [insertRoot, insNode]
    by_cases hle : numKeys (insGo order k v ch) ≤ order - 1
    · simp only [if_pos hle, rootHasKey]
      simp
      omega
    · rcases hsp : splitChain (order / 2) (insGo order k v ch) with ⟨l, s, r⟩
      simp [if_neg hle, hsp, rootHasKey, numKeys]

theorem insertRoot_spec {root : Node} {order : Nat} {k v : Int}
    (hord : 3 ≤ order) (hwf : wfN order none none root = true)
    (hfresh : ∀ e ∈ toListN root, e.1 ≠ k) :
    wfN order none none (insertRoot order k v root) = true
    ∧ toListN (insertRoot order k v root) = insertSorted k v (toListN root) := by
  have hcore := insNode_toList (v := v) hord hwf trivial trivial hfresh
  obtain ⟨P, S, hdec, hP, hS, hres, hiwf⟩ :=
    insNode_master root order none none k v hord hwf trivial trivial hfresh
  rcases hI : insNode order k v root with ⟨n'⟩ | ⟨l, s, r⟩
  · rw [hI] at hiwf hcore
    simp only [insWf] at hiwf
    simp only [resToList] at hcore
    exact ⟨by simpa [insertRoot, hI] using hiwf, by simpa [insertRoot, hI] using hcore⟩
  · rw [hI] at hiwf hcore
    simp only [insWf] at hiwf
    obtain ⟨hwl, hwr, hsl, hur⟩ := hiwf
    simp only [resToList] at hcore
    constructor
    · simp only [insertRoot, hI]
      refine wfN_internal_iff.2 ⟨?_, ?_⟩
      · simp [numKeys]
        omega
      · exact wfC_cons_iff.2 ⟨hsl, hur, hwl, wfC_last_iff.2 hwr⟩
    · simp only [insertRoot, hI, toListN, toListC]
      exact hcore

theorem insert_step {t : BPlusTree} {k v : Int}
    (hnodup : findInLeaf (findLeafN t.root k) k = none)
    (hempty : t.root ≠ .leaf []) :
    bplus_tree_insert true (some t) (some k) (some v)
      = (0, some { t with root := insertRoot t.order k v t.root }, []) := by
  cases hr : t.root with
  | leaf es =>
    cases es with
    | nil => exact absurd hr hempty
    | cons e es' =>
      rw [hr] at hnodup
      simp [bplus_tree_insert, hnodup, hr]
  | internal ch =>
    rw [hr] at hnodup
    simp [bplus_tree_insert, hnodup, hr]

theorem insert_ok {t : BPlusTree} {k v : Int} (hord : 3 ≤ t.order)
    (hwf : wfT t = true) (hfresh : ∀ e ∈ toListN t.root, e.1 ≠ k) :
    ∃ t', bplus_tree_insert true (some t) (some k) (some v) = (0, some t', [])
      ∧ t'.order = t.order ∧ t'.hasDestroy = t.hasDestroy ∧ wfT t' = true
      ∧ toListN t'.root = insertSorted k v (toListN t.root) := by
  simp only [wfT, Bool.and_eq_true] at hwf
  obtain ⟨hwfN, hrk⟩ := hwf
  have hnodup := find_absent hwfN hfresh
  by_cases hempty : t.root = .leaf []
  · refine ⟨{ t with root := .leaf [(k, v)] }, ?_, rfl, rfl, ?_, ?_⟩
    · rw [hempty] at hnodup
      simp [bplus_tree_insert, hnodup, hempty]
    · simp only [wfT, Bool.and_eq_true]
      refine ⟨wfN_leaf_iff.2 ⟨by simp; omega, by simp, by simp⟩, by simp [rootHasKey]⟩
    · simp [toListN, hempty, insertSorted]
  · obtain ⟨hwf', htl'⟩ := insertRoot_spec hord hwfN hfresh
    refine ⟨{ t with root := insertRoot t.order k v t.root },
      insert_step hnodup hempty, rfl, rfl, ?_, htl'⟩
    simp only [wfT, Bool.and_eq_true]
    exact ⟨hwf', insertRoot_rootHasKey hrk⟩

theorem insert_split_leaves {t : BPlusTree} {k v : Int} (hord : 3 ≤ t.order)
    (hwf : wfT t = true) (hfresh : ∀ e ∈ toListN t.root, e.1 ≠ k)
    (hfull : (findLeafN t.root k).length = t.order - 1) :
    ∃ P S, bplus_tree_insert true (some t) (some k) (some v)
        = (0, some { t with root := insertRoot t.order k v t.root }, [])
      ∧ leavesN t.root = P ++ findLeafN t.root k :: S
      ∧ (∀ e ∈ P.flatten, e.1 < k) ∧ (∀ e ∈ S.flatten, k < e.1)
      ∧ leavesN (insertRoot t.order k v t.root)
          = P ++ ((insertSorted k v (findLeafN t.root k)).take ((t.order + 1) / 2)
              :: (insertSorted k v (findLeafN t.root k)).drop ((t.order + 1) / 2) :: S) := by
  simp only [wfT, Bool.and_eq_true] at hwf
  obtain ⟨hwfN, hrk⟩ := hwf
  have hnodup := find_absent hwfN hfresh
  have hempty : t.root ≠ .leaf [] := by
    intro h
    rw [h] at hfull
    simp [findLeafN] at hfull
    omega
  obtain ⟨P, S, hdec, hP, hS, hres, _⟩ :=
    insNode_master t.root t.order none none k v hord hwfN trivial trivial hfresh
  have hnew : newLeaves t.order k v (findLeafN t.root k)
      = [(insertSorted k v (findLeafN t.root k)).take ((t.order + 1) / 2),
         (insertSorted k v (findLeafN t.root k)).drop ((t.order + 1) / 2)] := by
    rw [newLeaves, if_neg (by omega)]
  have hlv : leavesN (insertRoot t.order k v t.root)
      = resLeaves (insNode t.order k v t.root) := by
    rcases hI : insNode t.order k v t.root with ⟨n'⟩ | ⟨l, s, r⟩
    · simp [insertRoot, hI, resLeaves]
    · simp [insertRoot, hI, resLeaves, leavesN, leavesC]
  refine ⟨P, S, insert_step hnodup hempty, hdec, hP, hS, ?_⟩
  rw [hlv, hres, hnew]
  simp

theorem insert_dup {t : BPlusTree} {k v0 : Int} (a : Bool) (v' : Int)
    (hwf : wfN t.order none none t.root = true) (hmem : (k, v0) ∈ toListN t.root) :
    bplus_tree_insert a (some t) (some k) (some v') = (-1, some t, []) := by
  simp [bplus_tree_insert, find_present hwf hmem]

/-! ### Small helpers for the claim statements -/

theorem chainKeys_length : ∀ ch : Chain, (chainKeys ch).length = numKeys ch
  | .last _ => rfl
  | .cons _ _ rest => by simp [chainKeys, numKeys, chainKeys_length rest]

/-! ### Claims -/

/-- C1: the claim says every non-root node keeps the minimum occupancy
(⌈(order−1)/2⌉ keys for leaves, ⌈order/2⌉−1 for internal nodes) and that
delete restores it by redistribution or merge.  The code's thresholds in
`delete_entry` agree with the claim, but the rebalancing itself is omitted
(btree.c:622-628 "Simplified: For now, we just unlock"), contradicting the
file's own header ("Full Deletion Logic: Handles redistribution and merging").
Concretely: create(order=3), insert 1,2,3, delete 3 leaves a non-root leaf
with 0 < 1 = ⌈(3−1)/2⌉ keys, and `treeMinOcc` is false on the result. -/
theorem c1_delete_leaves_underflow :
    bplus_tree_create 3 (some compare_ints) true = some ⟨3, true, .leaf []⟩
    ∧ bplus_tree_insert true (some ⟨3, true, .leaf []⟩) (some 1) (some 10)
        = (0, some ⟨3, true, .leaf [(1, 10)]⟩, [])
    ∧ bplus_tree_insert true (some ⟨3, true, .leaf [(1, 10)]⟩) (some 2) (some 20)
        = (0, some ⟨3, true, .leaf [(1, 10), (2, 20)]⟩, [])
    ∧ bplus_tree_insert true (some ⟨3, true, .leaf [(1, 10), (2, 20)]⟩)
          (some 3) (some 30)
        = (0, some ⟨3, true,
            .internal (.cons (.leaf [(1, 10), (2, 20)]) 3 (.last (.leaf [(3, 30)])))⟩, [])
    ∧ bplus_tree_delete
          (some ⟨3, true,
            .internal (.cons (.leaf [(1, 10), (2, 20)]) 3 (.last (.leaf [(3, 30)])))⟩)
          (some 3)
        = (0, some ⟨3, true,
            .internal (.cons (.leaf [(1, 10), (2, 20)]) 3 (.last (.leaf [])))⟩, [30])
    ∧ treeMinOcc ⟨3, true,
          .internal (.cons (.leaf [(1, 10), (2, 20)]) 3 (.last (.leaf [])))⟩ = false
    ∧ (3 : Nat) / 2 = 1 :=
  ⟨rfl, rfl, rfl, rfl, rfl, rfl, rfl⟩

/-- C2: on a well-formed tree, `bplus_tree_find_range t lo hi cap` returns
exactly the values of the stored keys k with lo ≤ k ≤ hi, in ascending key
order, truncated to the first `cap`; the returned count is the length of that
list; and when compare(lo, hi) > 0 nothing is written and the count is 0. -/
theorem c2_range_spec (t : BPlusTree) (lo hi : Int) (cap : Nat)
    (hwf : wfT t = true) :
    bplus_tree_find_range t lo hi cap
      = (((toListN t.root).filter
            (fun e => decide (lo ≤ e.1) && decide (e.1 ≤ hi))).map (·.2)).take cap
    ∧ (bplus_tree_find_range t lo hi cap).length
        = min cap (((toListN t.root).filter
            (fun e => decide (lo ≤ e.1) && decide (e.1 ≤ hi))).length)
    ∧ (0 < compare_ints lo hi → bplus_tree_find_range t lo hi cap = []) := by
  have hwfN : wfN t.order none none t.root = true := by
    simp only [wfT, Bool.and_eq_true] at hwf
    exact hwf.1
  have h := find_range_spec t lo hi cap hwfN
  refine ⟨h, ?_, ?_⟩
  · rw [h, List.length_take, List.length_map]
  · intro hgt
    simp only [bplus_tree_find_range, if_pos hgt]

/-- C2 witness: on the two-leaf tree storing 1↦10, 2↦20, 3↦30,
range(2, 3, cap 10) yields [20, 30]. -/
theorem c2_range_spec_witness :
    bplus_tree_find_range
        ⟨3, true, .internal (.cons (.leaf [(1, 10), (2, 20)]) 3 (.last (.leaf [(3, 30)])))⟩
        2 3 10 = [20, 30] := by
  rw [(c2_range_spec
      ⟨3, true, .internal (.cons (.leaf [(1, 10), (2, 20)]) 3 (.last (.leaf [(3, 30)])))⟩
      2 3 10 rfl).1]
  rfl

/-- C3: inserting a key already stored (with any allocation outcome) returns
the failure code -1, leaves the tree exactly as it was after the first
insert, and invokes the value destructor on nothing — in particular not on
the rejected value, for which no record is created. -/
theorem c3_duplicate_insert (t : BPlusTree) (k v0 v' : Int) (a : Bool)
    (hwf : wfT t = true) (hmem : (k, v0) ∈ toListN t.root) :
    bplus_tree_insert a (some t) (some k) (some v') = (-1, some t, []) := by
  have hwfN : wfN t.order none none t.root = true := by
    simp only [wfT, Bool.and_eq_true] at hwf
    exact hwf.1
  exact insert_dup a v' hwfN hmem

/-- C3 witness: re-inserting key 1 into a tree storing 1↦10 fails and keeps
the tree unchanged. -/
theorem c3_duplicate_insert_witness :
    bplus_tree_insert true (some ⟨3, true, .leaf [(1, 10)]⟩) (some 1) (some 99)
      = (-1, some ⟨3, true, .leaf [(1, 10)]⟩, []) :=
  c3_duplicate_insert ⟨3, true, .leaf [(1, 10)]⟩ 1 10 99 true rfl (by decide)

/-- C4: inserting a fresh non-null key with a non-null value into a
well-formed tree succeeds, and a subsequent find returns exactly that
value. -/
theorem c4_insert_then_find (t : BPlusTree) (k v : Int) (hord : 3 ≤ t.order)
    (hwf : wfT t = true) (hfresh : ∀ e ∈ toListN t.root, e.1 ≠ k) :
    ∃ t', bplus_tree_insert true (some t) (some k) (some v) = (0, some t', [])
      ∧ bplus_tree_find (some t') (some k) = some v := by
  obtain ⟨t', hins, _, _, hwf', htl⟩ := insert_ok hord hwf hfresh
  refine ⟨t', hins, ?_⟩
  have hwfN' : wfN t'.order none none t'.root = true := by
    simp only [wfT, Bool.and_eq_true] at hwf'
    exact hwf'.1
  have hmem : (k, v) ∈ toListN t'.root := by
    rw [htl]
    exact (mem_insertSorted _).2 (Or.inl rfl)
  simpa [bplus_tree_find] using find_present hwfN' hmem

/-- C4 witness: insert 42↦7 into the empty order-4 tree, then find 42. -/
theorem c4_insert_then_find_witness :
    ∃ t', bplus_tree_insert true (some ⟨4, false, .leaf []⟩) (some 42) (some 7)
        = (0, some t', [])
      ∧ bplus_tree_find (some t') (some 42) = some 7 :=
  c4_insert_then_find ⟨4, false, .leaf []⟩ 42 7 (by decide) rfl (by decide)

/-- C5: when the located leaf is full (order−1 keys), insertion splits the
logical sequence of order entries at split = ⌈order/2⌉ = (order+1)/2: the
first split entries stay in the old leaf, the remaining order−split entries
go to the new leaf, and the new leaf is threaded into the leaf chain directly
after the old one (new.next = old.next; old.next = new), leaving every other
leaf in place. -/
theorem c5_leaf_split (t : BPlusTree) (k v : Int) (hord : 3 ≤ t.order)
    (hwf : wfT t = true) (hfresh : ∀ e ∈ toListN t.root, e.1 ≠ k)
    (hfull : (findLeafN t.root k).length = t.order - 1) :
    ∃ t' P S, bplus_tree_insert true (some t) (some k) (some v) = (0, some t', [])
      ∧ leavesN t.root = P ++ findLeafN t.root k :: S
      ∧ leavesN t'.root
          = P ++ ((insertSorted k v (findLeafN t.root k)).take ((t.order + 1) / 2)
              :: (insertSorted k v (findLeafN t.root k)).drop ((t.order + 1) / 2) :: S)
      ∧ ((insertSorted k v (findLeafN t.root k)).take ((t.order + 1) / 2)).length
          = (t.order + 1) / 2
      ∧ ((insertSorted k v (findLeafN t.root k)).drop ((t.order + 1) / 2)).length
          = t.order - (t.order + 1) / 2 := by
  obtain ⟨P, S, hins, hdec, hP, hS, hres⟩ := insert_split_leaves hord hwf hfresh hfull
  refine ⟨_, P, S, hins, hdec, hres, ?_, ?_⟩
  · rw [List.length_take, insertSorted_length]
    omega
  · rw [List.length_drop, insertSorted_length]
    omega

/-- C5 witness: inserting 3 into the full order-3 root leaf [1, 2] splits it
into [1, 2] and [3], with the new leaf threaded right after the old one. -/
theorem c5_leaf_split_witness :
    ∃ t' P S, bplus_tree_insert true (some ⟨3, true, .leaf [(1, 10), (2, 20)]⟩)
          (some 3) (some 30) = (0, some t', [])
      ∧ leavesN (Node.leaf [(1, 10), (2, 20)])
          = P ++ findLeafN (Node.leaf [(1, 10), (2, 20)]) 3 :: S
      ∧ leavesN t'.root
          = P ++ ((insertSorted 3 30 (findLeafN (Node.leaf [(1, 10), (2, 20)]) 3)).take 2
              :: (insertSorted 3 30 (findLeafN (Node.leaf [(1, 10), (2, 20)]) 3)).drop 2 :: S)
      ∧ ((insertSorted 3 30 (findLeafN (Node.leaf [(1, 10), (2, 20)]) 3)).take 2).length = 2
      ∧ ((insertSorted 3 30 (findLeafN (Node.leaf [(1, 10), (2, 20)]) 3)).drop 2).length
          = 3 - 2 :=
  c5_leaf_split ⟨3, true, .leaf [(1, 10), (2, 20)]⟩ 3 30 (by decide) rfl (by decide)
    (by decide)

/-- C6 counterexample: the claim says a leaf split leaves the floor of the
balanced size in the left leaf, but at order 3 the code keeps
(order+1)/2 = 2 entries in the old leaf — not ⌊3/2⌋ = 1: inserting 3 into
the full leaf [1, 2] keeps [1, 2] on the left and moves only [3]. -/
theorem c6_leaf_floor_counterexample :
    insLeaf 3 3 30 [(1, 10), (2, 20)]
      = .split (.leaf [(1, 10), (2, 20)]) 3 (.leaf [(3, 30)])
    ∧ (2 : Nat) ≠ 3 / 2 :=
  ⟨rfl, by decide⟩

/-- C6 amended: an internal split promotes the middle key at index
⌊order/2⌋ of the logical sequence of order keys; the keys before it stay in
the original node, the keys after it move to the new node, and (the keys
being distinct) the promoted key is retained in neither.  A leaf split keeps
the CEILING ⌈order/2⌉ = (order+1)/2 of the order entries in the left leaf,
not the floor. -/
theorem c6_split_tiebreaks :
    (∀ (order : Nat) (ch : Chain), 3 ≤ order → numKeys ch = order →
      chainKeys ch
          = chainKeys (splitChain (order / 2) ch).1
            ++ (splitChain (order / 2) ch).2.1
              :: chainKeys (splitChain (order / 2) ch).2.2
      ∧ (chainKeys (splitChain (order / 2) ch).1).length = order / 2
      ∧ ((chainKeys ch).Pairwise (· < ·) →
          (splitChain (order / 2) ch).2.1 ∉ chainKeys (splitChain (order / 2) ch).1
          ∧ (splitChain (order / 2) ch).2.1
              ∉ chainKeys (splitChain (order / 2) ch).2.2))
    ∧ (∀ (order : Nat) (k v : Int) (es : List Entry), 3 ≤ order →
        es.length = order - 1 →
        insLeaf order k v es
          = .split (.leaf ((insertSorted k v es).take ((order + 1) / 2)))
              (((insertSorted k v es).drop ((order + 1) / 2)).headD (0, 0)).1
              (.leaf ((insertSorted k v es).drop ((order + 1) / 2)))
        ∧ ((insertSorted k v es).take ((order + 1) / 2)).length = (order + 1) / 2) := by
  constructor
  · intro order ch hord hn
    have hj : order / 2 < numKeys ch := by omega
    obtain ⟨hkeq, hnl, _, _⟩ := splitChain_parts (order / 2) ch hj
    refine ⟨hkeq, by rw [chainKeys_length, hnl], ?_⟩
    intro hpw
    rw [hkeq] at hpw
    have h1 := List.pairwise_append.1 hpw
    constructor
    · intro hmem
      exact absurd (h1.2.2 _ hmem _ (List.mem_cons_self _ _))
        (lt_irrefl (splitChain (order / 2) ch).2.1)
    · intro hmem
      exact absurd ((List.pairwise_cons.1 h1.2.1).1 _ hmem)
        (lt_irrefl (splitChain (order / 2) ch).2.1)
  · intro order k v es hord hlen
    constructor
    · simp only [insLeaf, if_neg (by omega : ¬ es.length < order - 1)]
    · rw [List.length_take, insertSorted_length]
      omega

/-- C6 witness: order 3 — an internal split of a 3-key chain keeps
⌊3/2⌋ = 1 key left of the promoted middle key, and a full order-3 leaf keeps
⌈3/2⌉ = 2 entries on the left. -/
theorem c6_split_tiebreaks_witness :
    (chainKeys (splitChain (3 / 2)
        (.cons (.leaf []) 1 (.cons (.leaf []) 2 (.cons (.leaf []) 3
          (.last (.leaf [])))))).1).length = 3 / 2
    ∧ ((insertSorted 3 30 [(1, 10), (2, 20)]).take ((3 + 1) / 2)).length
        = (3 + 1) / 2 :=
  ⟨(c6_split_tiebreaks.1 3
      (.cons (.leaf []) 1 (.cons (.leaf []) 2 (.cons (.leaf []) 3 (.last (.leaf [])))))
      (by decide) (by decide)).2.1,
   (c6_split_tiebreaks.2 3 3 30 [(1, 10), (2, 20)] (by decide) (by decide)).2⟩

/-- C7: with a destructor configured, a successful delete invokes it exactly
once, on exactly the removed value, and only that entry leaves the tree
(everything else stays reachable); destroying the tree invokes it exactly
once on each remaining stored value, in leaf order. -/
theorem c7_destructor_once (t : BPlusTree) (k v : Int) (hd : t.hasDestroy = true)
    (hwf : wfT t = true) (hmem : (k, v) ∈ toListN t.root) :
    (∃ t' A B, bplus_tree_delete (some t) (some k) = (0, some t', [v])
      ∧ toListN t.root = A ++ (k, v) :: B ∧ (∀ e ∈ A, e.1 ≠ k)
      ∧ toListN t'.root = A ++ B)
    ∧ bplus_tree_destroy t = (toListN t.root).map (·.2) := by
  have hwfN : wfN t.order none none t.root = true := by
    simp only [wfT, Bool.and_eq_true] at hwf
    exact hwf.1
  constructor
  · obtain ⟨A, B, hAB, hA, hdel, htl⟩ := delete_present hwfN hmem
    rw [hd] at hdel
    simp only [if_pos rfl] at hdel
    exact ⟨_, A, B, hdel, hAB, hA, htl⟩
  · rw [bplus_tree_destroy, hd, destroyN_true]

/-- C7 witness: deleting key 1 from the tree storing 1↦10, 2↦20 destroys
exactly the value 10, and destroying the tree destroys [10, 20] in order. -/
theorem c7_destructor_once_witness :
    bplus_tree_destroy ⟨3, true, .leaf [(1, 10), (2, 20)]⟩ = [10, 20]
    ∧ (bplus_tree_delete (some ⟨3, true, .leaf [(1, 10), (2, 20)]⟩) (some 1)).2.2
        = [10] := by
  have h := c7_destructor_once ⟨3, true, .leaf [(1, 10), (2, 20)]⟩ 1 10 rfl rfl
    (by decide)
  obtain ⟨⟨t', A, B, hdel, _, _, _⟩, hdes⟩ := h
  exact ⟨by rw [hdes]; rfl, by rw [hdel]⟩

/-- C8 counterexample: the claim says creation fails (no tree exists) when
the comparator is null, but `bplus_tree_create` never checks the comparator:
with order 4 and a null comparator it returns a tree with an empty leaf
root. -/
theorem c8_null_comparator_counterexample :
    bplus_tree_create 4 none true = some ⟨4, true, .leaf []⟩ := rfl

/-- C8 amended: create fails (returning no tree) exactly when order < 3; the
comparator pointer is stored without any null check, so creation succeeds
even with a null comparator; the destructor may be absent; on success the
root is an empty leaf. -/
theorem c8_create_spec (order : Int) (cmp : Option (Int → Int → Int)) (d : Bool) :
    (order < 3 → bplus_tree_create order cmp d = none)
    ∧ (3 ≤ order → bplus_tree_create order cmp d = some ⟨order.toNat, d, .leaf []⟩) := by
  constructor
  · intro h
    simp [bplus_tree_create, h]
  · intro h
    simp [bplus_tree_create, show ¬ order < 3 by omega]

/-- C8 witness: order 2 fails; order 4 with a non-null comparator and no
destructor yields the empty-leaf-root tree. -/
theorem c8_create_spec_witness :
    bplus_tree_create 2 none true = none
    ∧ bplus_tree_create 4 (some compare_ints) false
        = some ⟨(4 : Int).toNat, false, .leaf []⟩ :=
  ⟨(c8_create_spec 2 none true).1 (by decide),
   (c8_create_spec 4 (some compare_ints) false).2 (by decide)⟩

/-- C9: the public interface collapses the distinct error kinds into one
failure value per operation: insert returns -1 for a null tree, null key or
null value (InvalidArg), for a duplicate key (DuplicateKey), and for record
allocation failure; delete returns -1 for null arguments and for an absent
key (NotFound); find returns NULL for null arguments and for an absent key —
so the caller cannot tell which error occurred. -/
theorem c9_error_collapse :
    (∀ (a : Bool) (k v : Option Int), bplus_tree_insert a none k v = (-1, none, []))
    ∧ (∀ (a : Bool) (t : BPlusTree) (v : Option Int),
        bplus_tree_insert a (some t) none v = (-1, some t, []))
    ∧ (∀ (a : Bool) (t : BPlusTree) (k : Int),
        bplus_tree_insert a (some t) (some k) none = (-1, some t, []))
    ∧ (∀ (a : Bool) (t : BPlusTree) (k v0 v : Int), wfT t = true →
        (k, v0) ∈ toListN t.root →
        bplus_tree_insert a (some t) (some k) (some v) = (-1, some t, []))
    ∧ (∀ (t : BPlusTree) (k v : Int), wfT t = true →
        (∀ e ∈ toListN t.root, e.1 ≠ k) →
        bplus_tree_insert false (some t) (some k) (some v) = (-1, some t, []))
    ∧ (∀ k, bplus_tree_delete none k = (-1, none, []))
    ∧ (∀ t : BPlusTree, bplus_tree_delete (some t) none = (-1, some t, []))
    ∧ (∀ (t : BPlusTree) (k : Int), wfT t = true →
        (∀ e ∈ toListN t.root, e.1 ≠ k) →
        bplus_tree_delete (some t) (some k) = (-1, some t, []))
    ∧ (∀ k, bplus_tree_find none k = none)
    ∧ (∀ t : BPlusTree, bplus_tree_find (some t) none = none)
    ∧ (∀ (t : BPlusTree) (k : Int), wfT t = true →
        (∀ e ∈ toListN t.root, e.1 ≠ k) →
        bplus_tree_find (some t) (some k) = none) := by
  have wfn : ∀ t : BPlusTree, wfT t = true → wfN t.order none none t.root = true := by
    intro t h
    simp only [wfT, Bool.and_eq_true] at h
    exact h.1
  refine ⟨?_, ?_, ?_, ?_, ?_, ?_, ?_, ?_, ?_, ?_, ?_⟩
  · intro a k v
    rfl
  · intro a t v
    rfl
  · intro a t k
    rfl
  · intro a t k v0 v hwf hmem
    exact insert_dup a v (wfn t hwf) hmem
  · intro t k v hwf hne
    simp [bplus_tree_insert, find_absent (wfn t hwf) hne]
  · intro k
    rfl
  · intro t
    rfl
  · intro t k hwf hne
    exact delete_absent (wfn t hwf) hne
  · intro k
    rfl
  · intro t
    rfl
  · intro t k hwf hne
    simp [bplus_tree_find, find_absent (wfn t hwf) hne]

/-- C9 witness: on the tree storing 1↦10, a duplicate insert of 1, an
allocation-failing insert of 2, a delete of the absent key 2 and a find of
the absent key 2 all return the same failure values as the null-argument
cases. -/
theorem c9_error_collapse_witness :
    bplus_tree_insert true (some ⟨3, true, .leaf [(1, 10)]⟩) (some 1) (some 99)
        = (-1, some ⟨3, true, .leaf [(1, 10)]⟩, [])
    ∧ bplus_tree_insert false (some ⟨3, true, .leaf [(1, 10)]⟩) (some 2) (some 99)
        = (-1, some ⟨3, true, .leaf [(1, 10)]⟩, [])
    ∧ bplus_tree_delete (some ⟨3, true, .leaf [(1, 10)]⟩) (some 2)
        = (-1, some ⟨3, true, .leaf [(1, 10)]⟩, [])
    ∧ bplus_tree_find (some ⟨3, true, .leaf [(1, 10)]⟩) (some 2) = none := by
  obtain ⟨h1, h2, h3, h4, h5, h6, h7, h8, h9, h10, h11⟩ := c9_error_collapse
  exact ⟨h4 true ⟨3, true, .leaf [(1, 10)]⟩ 1 10 99 rfl (by decide),
    h5 ⟨3, true, .leaf [(1, 10)]⟩ 2 99 rfl (by decide),
    h8 ⟨3, true, .leaf [(1, 10)]⟩ 2 rfl (by decide),
    h11 ⟨3, true, .leaf [(1, 10)]⟩ 2 rfl (by decide)⟩

/-- C10: the unguarded linear search of `remove_entry_from_node` is safe
under delete's guard: whenever the presence check of `bplus_tree_delete`
succeeds on the located leaf, the search loop stops at an index strictly
below the leaf's key count (never reading a slot at or beyond num_keys), and
the removal compacts exactly that slot away. -/
theorem c10_remove_entry_scan_safe (t : BPlusTree) (k : Int)
    (hpres : (findInLeaf (findLeafN t.root k) k).isSome = true) :
    scanIdx k (findLeafN t.root k) < (findLeafN t.root k).length
    ∧ removeFirst k (findLeafN t.root k)
        = (findLeafN t.root k).eraseIdx (scanIdx k (findLeafN t.root k)) :=
  scanIdx_spec _ hpres

/-- C10 witness: deleting key 2 from the leaf [1, 2]: the scan stops at
index 1 < 2 and removes exactly that slot. -/
theorem c10_remove_entry_scan_safe_witness :
    scanIdx 2 (findLeafN (.leaf [(1, 10), (2, 20)]) 2)
        < (findLeafN (.leaf [(1, 10), (2, 20)]) 2).length
    ∧ removeFirst 2 (findLeafN (.leaf [(1, 10), (2, 20)]) 2)
        = (findLeafN (.leaf [(1, 10), (2, 20)]) 2).eraseIdx
            (scanIdx 2 (findLeafN (.leaf [(1, 10), (2, 20)]) 2)) :=
  c10_remove_entry_scan_safe ⟨3, true, .leaf [(1, 10), (2, 20)]⟩ 2 (by decide)
